import Mathlib

/-!
Verification of the BITIS binary timed signal library (bitis.py) against its
natural-language specification.  Times are modelled as rationals, logic levels
as booleans, Python exceptions as an explicit error type.  The sentinel
void state (start is None) is modelled with Option for the start and end
fields.  All definitions follow the Python source of bitis.py.
-/

namespace Bitis

/-- Python exceptions raised by the source code. The fuelExhausted case is not
a Python exception: it models non-termination of the unbounded while loop in
serial_rx, which can genuinely hang on adversarial inputs; it never occurs in
any run appearing in the theorems below. -/
inductive Err where
  | typeError
  | valueError
  | assertionError
  | nameError
  | indexError
  | zeroDivisionError
  | fuelExhausted
deriving DecidableEq, Repr

/-- The Signal record: start time, edge times, end time, start level, time
scale.  start = none is the void signal (Python start is None); end_ mirrors
the end attribute (end is a Lean keyword). -/
structure Signal where
  start : Option ℚ
  edges : List ℚ
  end_ : Option ℚ
  slevel : Bool
  tscale : ℚ
deriving DecidableEq, Repr

/-- Python 2 truthiness of a start/end value: None and 0 are falsy. -/
def pyTruthy : Option ℚ → Bool
  | none => false
  | some x => x != 0

/-- Python 2 order on possibly-None numbers: None compares less than every
number (and None < None is false). -/
def pyLt : Option ℚ → Option ℚ → Bool
  | none, none => false
  | none, some _ => true
  | some _, none => false
  | some a, some b => a < b

/-- Python 2 less-or-equal on possibly-None numbers. -/
def pyLe : Option ℚ → Option ℚ → Bool
  | none, _ => true
  | some _, none => false
  | some a, some b => a ≤ b

/-- Python 2 min of possibly-None numbers (None is smallest). -/
def pyMin : Option ℚ → Option ℚ → Option ℚ
  | none, _ => none
  | _, none => none
  | some a, some b => some (min a b)

/-- The void signal, value of the default constructor call Signal(). -/
def voidSignal : Signal := ⟨none, [], none, false, 1⟩

/-- The ascending-edges loop of Signal.validate: every adjacent pair of
edge times must be strictly increasing. -/
def ascends : List ℚ → Bool
  | [] => true
  | [_] => true
  | x :: y :: rest => decide (x < y) && ascends (y :: rest)

/-- Signal.__init__ together with Signal.validate: the value checks of the
source (the type checks are enforced by the embedding types).  Note the
source guards the start < end check with the truthiness of start, so a
start time of 0 (or None) skips that check. -/
def mkSignal (start : Option ℚ) (edges : List ℚ) (end_ : Option ℚ)
    (slevel : Bool) (tscale : ℚ) : Except Err Signal :=
  if pyTruthy start && !(pyLt start end_) then .error .valueError
  else
    match edges with
    | [] => .ok ⟨start, edges, end_, slevel, tscale⟩
    | e0 :: rest =>
      if !(pyLe start (some e0)) then .error .valueError
      else if !(pyLe (some ((e0 :: rest).getLastD e0)) end_) then .error .valueError
      else if !(ascends (e0 :: rest)) then .error .valueError
      else .ok ⟨start, edges, end_, slevel, tscale⟩

/-- Signal.__nonzero__: a signal is truthy iff it is not void. -/
def nonvoid (s : Signal) : Bool := s.start.isSome

/-- Parity xor used throughout the source as (n & 1) ^ slevel. -/
def lxor (n : ℕ) (b : Bool) : Bool := xor (decide (n % 2 = 1)) b

/-- Signal.end_level: the logic level at the end of the signal. -/
def end_level (s : Signal) : Bool := lxor s.edges.length s.slevel

/-- Signal.level: logic level and edge count at a given time, scanning from
a given edge position.  The scan advances while time is strictly greater
than the current edge; running off the list raises IndexError, which the
source catches: it then reports None past the signal end and the final
level otherwise. -/
def level (s : Signal) (time : ℚ) (tpos : ℕ) : Option (Bool × ℕ) :=
  let rest := s.edges.drop tpos
  let k := (rest.takeWhile (fun e => decide (e < time))).length
  if k = rest.length then
    if pyLt s.end_ (some time) then none
    else some (lxor s.edges.length s.slevel, s.edges.length)
  else some (lxor (tpos + k) s.slevel, tpos + k)

/-- Signal.elapse: end - start, None for void.  A non-void signal whose end
is None raises TypeError in Python 2 arithmetic. -/
def elapse (s : Signal) : Except Err (Option ℚ) :=
  match s.start with
  | none => .ok none
  | some a =>
    match s.end_ with
    | none => .error .typeError
    | some b => .ok (some (b - a))

/-- Signal.shift: add an offset to start, edges and end.  Void signals are
shift invariant; a non-void signal with end None raises TypeError. -/
def shift (s : Signal) (offset : ℚ) : Except Err Signal :=
  match s.start with
  | none => .ok s
  | some a =>
    match s.end_ with
    | none => .error .typeError
    | some b =>
      .ok ⟨some (a + offset), s.edges.map (· + offset), some (b + offset),
        s.slevel, s.tscale⟩

/-- Signal.__eq__: Python compares the attribute dictionaries when both
signals are truthy, otherwise both must be void. -/
def pyEq (a b : Signal) : Bool :=
  if nonvoid a && nonvoid b then decide (a = b)
  else !(nonvoid a) && !(nonvoid b)

/-- Signal.split: split at a time t into an older part ending at t and a
newer part starting at t; an edge exactly at t goes to the newer part.
The non-inplace newer part goes through the validating constructor, the
inplace one is assigned field by field; both carry the same field values on
the inputs reached by the theorems below.  The level lookup cannot return
None here (the guard t < end precedes it); Python would raise TypeError in
that branch while building the parts, which the translation mirrors. -/
def split (s : Signal) (t : ℚ) (inplace : Bool) : Except Err (Signal × Signal) :=
  if !(nonvoid s) then
    if inplace then .ok (s, s) else .ok (voidSignal, voidSignal)
  else if pyLe (some t) s.start then
    .ok (voidSignal, s)
  else if pyLe s.end_ (some t) then
    .ok (s, voidSignal)
  else
    match level s t 0 with
    | none => .error .typeError
    | some (lvl, pos) => do
      let older ← mkSignal s.start (s.edges.take pos) (some t) s.slevel s.tscale
      if inplace then
        .ok (older, ⟨some t, s.edges.drop pos, s.end_, lvl, s.tscale⟩)
      else do
        let newer ← mkSignal (some t) (s.edges.drop pos) s.end_ lvl s.tscale
        .ok (older, newer)

/-- Signal.join: concatenate two time-disjoint signals.  A void operand is
absorbed.  The two assert statements check non-overlap and the end/start
level match; the non-inplace result goes through the validating constructor
with the default time scale, the inplace result keeps the receiver's
time scale and skips validation. -/
def join (s other : Signal) (inplace : Bool) : Except Err Signal :=
  if !(nonvoid other) then .ok s
  else if !(nonvoid s) then .ok other
  else if !(pyLe s.end_ other.start) then .error .assertionError
  else if end_level s != other.slevel then .error .assertionError
  else if inplace then
    .ok ⟨s.start, s.edges ++ other.edges, other.end_, s.slevel, s.tscale⟩
  else
    mkSignal s.start (s.edges ++ other.edges) other.end_ s.slevel 1

/-- Signal.append: join in place. -/
def append (s other : Signal) : Except Err Signal := join s other true

/-- Python float modulo with floor semantics, used in chop; a zero divisor
raises ZeroDivisionError at the call site. -/
def qfmod (x p : ℚ) : ℚ := x - p * ⌊x / p⌋

/-- The chopping loop of Signal.chop: the source iterates c over
range(1, max_chops), splitting in place and collecting the older parts,
stopping after the split time passes the original end. -/
def chopLoop (selfEnd : Option ℚ) (period : ℚ) :
    ℕ → Signal → ℚ → Except Err (List Signal)
  | 0, _, _ => .ok []
  | fuel + 1, signal, splitT => do
    let (older, newer) ← split signal splitT true
    if pyLe selfEnd (some splitT) then .ok [older]
    else do
      let rest ← chopLoop selfEnd period fuel newer (splitT + period)
      .ok (older :: rest)

/-- Signal.chop: divide the signal into period-long contiguous parts from an
origin.  Void gives an empty list; an origin at or past the end gives a
single clone of the signal.  The source default for maxChops is 1000. -/
def chop (s : Signal) (period : ℚ) (origin : Option ℚ) (maxChops : ℕ) :
    Except Err (List Signal) :=
  match s.start with
  | none => .ok []
  | some a =>
    let org := origin.getD a
    if pyLe s.end_ (some org) then .ok [s]
    else do
      let (signal1, firstSplit) ←
        if org ≤ a then
          if period = 0 then .error .zeroDivisionError
          else pure (s, a + period - qfmod (a - org) period)
        else do
          let (_, newer) ← split s org true
          pure (newer, org + period)
      chopLoop s.end_ period (maxChops - 1) signal1 firstSplit

/-- The edge summation of Signal.integral: gaps between edge pairs; an odd
tail adds end minus the last edge (the IndexError branch of the source). -/
def edgesInt (endT : ℚ) : List ℚ → ℚ
  | [] => 0
  | [e] => endT - e
  | e1 :: e2 :: rest => (e2 - e1) + edgesInt endT rest

/-- Signal.integral: total duration spent at the given level, optionally
normalized by the elapse.  None for void; a non-void signal with end None
raises TypeError in the Python arithmetic. -/
def integral (s : Signal) (lvl : Bool) (normalize : Bool) :
    Except Err (Option ℚ) :=
  match s.start with
  | none => .ok none
  | some a =>
    match s.end_ with
    | none => .error .typeError
    | some b =>
      let ei := edgesInt b s.edges
      let absInt := if xor lvl s.slevel then ei else b - a - ei
      if normalize then
        if b - a = 0 then .error .zeroDivisionError
        else .ok (some (absInt / (b - a)))
      else .ok (some absInt)

/-- The edge index search of Signal._intersect for one operand: the first
index at or after the window start and one past the last index at or before
the window end; all indices when every edge precedes the start, zero when
every edge in the scan exceeds the end. -/
def isectIdx (edges : List ℚ) (lo hi : ℚ) : ℕ × ℕ :=
  let n := edges.length
  let iStart := (edges.takeWhile (fun e => decide (e < lo))).length
  if iStart = n then (n, n)
  else
    let k := (edges.reverse.takeWhile (fun e => decide (hi < e))).length
    if k = n then (0, 0) else (iStart, n - k)

/-- Signal._intersect: window of overlap of two signals plus, per operand,
the in-window edge index range and the level just before the first
in-window edge. -/
def intersect (a b : Signal) :
    Option (ℚ × ℚ × ℕ × ℕ × Bool × ℕ × ℕ × Bool) :=
  match a.start, b.start with
  | some sa, some sb =>
    let lo := max sa sb
    match pyMin a.end_ b.end_ with
    | none => none
    | some hi =>
      if hi ≤ lo then none
      else
        let (iaS, iaE) := isectIdx a.edges lo hi
        let (ibS, ibE) := isectIdx b.edges lo hi
        some (lo, hi, iaS, iaE, lxor iaS a.slevel, ibS, ibE, lxor ibS b.slevel)
  | _, _ => none

/-- The merge loop of Signal._bioper: walk the two in-window edge slices in
time order, flipping input levels and emitting an edge whenever the
operator output changes; ties advance both slices.  The absolute index
counters ia and ib of the source are carried alongside the slices.  The
loop consumes at least one slice element per iteration, so it is driven by
a fuel argument set to the sum of the slice lengths at the call site.
Returns the emitted edges and the final counters and levels. -/
def bioperMerge (op : Bool → Bool → Bool) :
    ℕ → List ℚ → List ℚ → ℕ → ℕ → Bool → Bool → Bool →
    List ℚ × ℕ × ℕ × Bool × Bool × Bool
  | _, [], _, ia, ib, ina, inb, out => ([], ia, ib, ina, inb, out)
  | _, _ :: _, [], ia, ib, ina, inb, out => ([], ia, ib, ina, inb, out)
  | 0, _ :: _, _ :: _, ia, ib, ina, inb, out => ([], ia, ib, ina, inb, out)
  | fuel + 1, a :: as_, b :: bs, ia, ib, ina, inb, out =>
    if a < b then
      let ina' := !ina
      if out != op ina' inb then
        let r := bioperMerge op fuel as_ (b :: bs) (ia + 1) ib ina' inb (!out)
        (a :: r.1, r.2)
      else
        bioperMerge op fuel as_ (b :: bs) (ia + 1) ib ina' inb out
    else if b < a then
      let inb' := !inb
      if out != op ina inb' then
        let r := bioperMerge op fuel (a :: as_) bs ia (ib + 1) ina inb' (!out)
        (b :: r.1, r.2)
      else
        bioperMerge op fuel (a :: as_) bs ia (ib + 1) ina inb' out
    else
      let ina' := !ina
      let inb' := !inb
      if out != op ina' inb' then
        let r := bioperMerge op fuel as_ bs (ia + 1) (ib + 1) ina' inb' (!out)
        (a :: r.1, r.2)
      else
        bioperMerge op fuel as_ bs (ia + 1) (ib + 1) ina' inb' out

/-- Signal._bioper: generic binary logic operator over the intersection of
two signals.  Degenerate constant-operand fast paths mirror the source; the
trailing slice of the unexhausted operand is appended only when the
operator is sensitive to it at the other operand's frozen final level.
The source line in_b == other.slevel ^ (ib & 1) is a comparison, not an
assignment, so the merge's running in_b is what the sensitivity test uses. -/
def bioper (s other : Signal) (op : Bool → Bool → Bool) : Signal :=
  if !(nonvoid s) || !(nonvoid other) then voidSignal
  else
    match intersect s other with
    | none => voidSignal
    | some (lo, hi, iaS, iaE, slA, ibS, ibE, slB) =>
      if s.edges.length < 1 && other.edges.length < 1 then
        ⟨some lo, [], some hi, op s.slevel other.slevel, 1⟩
      else if s.edges.length < 1 && (op true false == s.slevel) then
        ⟨some lo, [], some hi, s.slevel, 1⟩
      else if other.edges.length < 1 && (op true false == other.slevel) then
        ⟨some lo, [], some hi, other.slevel, 1⟩
      else
        let slv := op slA slB
        let aSeg := (s.edges.drop iaS).take (iaE - iaS)
        let bSeg := (other.edges.drop ibS).take (ibE - ibS)
        let (emitted, ia, ib, _, inb, _) :=
          bioperMerge op (aSeg.length + bSeg.length) aSeg bSeg iaS ibS slA slB slv
        let edges2 :=
          if ia = iaE && ib < ibE then
            let ina' := lxor ia s.slevel
            if op ina' false != op ina' true then
              emitted ++ (other.edges.drop ib).take (ibE - ib)
            else emitted
          else if ia < iaE && ib = ibE then
            if op inb false != op inb true then
              emitted ++ (s.edges.drop ia).take (iaE - ia)
            else emitted
          else emitted
        ⟨some lo, edges2, some hi, slv, 1⟩

/-- Signal.__and__: logic and of two signals. -/
def sigAnd (s other : Signal) : Signal := bioper s other (fun a b => a && b)

/-- The per-bit loop of bin2pwm: one pulse per bit at the period cadence,
with pulse width elapse_1 for a set bit and elapse_0 otherwise. -/
def pwmBits (period e0 e1 : ℚ) : ℕ → ℕ → ℚ → List ℚ
  | 0, _, _ => []
  | n + 1, code, t0 =>
    let t1 := t0 + (if code % 2 = 1 then e1 else e0)
    t0 :: t1 :: pwmBits period e0 e1 n (code / 2) (t0 + period)

/-- bin2pwm: convert a list of (bit count, value) fields into a pulse width
modulation signal.  On an empty list the source never assigns the local
variable end and raises NameError at the final comparison; when the start
equals the computed end (all fields empty) the void signal is returned. -/
def bin2pwm (bincode : List (ℕ × ℕ)) (e0 e1 period : ℚ) (active : Bool)
    (origin : ℚ) (tscale : ℚ) : Except Err Signal :=
  match bincode with
  | [] => .error .nameError
  | _ =>
    let acc := bincode.foldl
      (fun (st : List ℚ × ℚ) (p : ℕ × ℕ) =>
        let endT := (p.1 : ℚ) * period + st.2
        (st.1 ++ pwmBits period e0 e1 p.1 p.2 st.2, endT))
      ([], origin)
    if origin = acc.2 then .ok voidSignal
    else mkSignal (some origin) acc.1 (some acc.2) (!active) tscale

/-- Serial parity mode: the parity keyword argument of the serial codec. -/
inductive Parity where
  | off
  | odd
  | even
deriving DecidableEq, Repr

/-- The loop of the private helper __parity: repeatedly clear the lowest set
bit, counting iterations.  Each step strictly decreases v, so fuel equal to
the initial value bounds the iteration count. -/
def parityOnes : ℕ → ℕ → ℕ → ℕ
  | 0, _, ones => ones
  | f + 1, v, ones =>
    if v = 0 then ones
    else parityOnes f (v &&& (v - 1)) (ones + 1)

/-- The private helper __parity: 0 for an even number of set bits, 1 for an
odd number. -/
def parity_ (value : ℕ) : ℕ := parityOnes value value 0 &&& 1

/-- The mask loop of serial_tx: starting from 0x1f, shift in a low one bit
char_bits - 5 times. -/
def parityMaskLoop : ℕ → ℕ → ℕ
  | 0, mask => mask
  | n + 1, mask => parityMaskLoop n (mask * 2 + 1)

/-- The data-bit loop of serial_tx: serialize n bits of schar LSB first,
starting at bit cell c.  The line level encodes the inverted bit; an edge is
emitted at start + c * bit_time exactly when the current line level equals
the bit to transmit.  Returns the emitted edges and the final line level. -/
def txBits (bit_time startT : ℚ) : ℕ → ℕ → ℕ → Bool → List ℚ × Bool
  | 0, _, _, line => ([], line)
  | n + 1, c, schar, line =>
    let bit := decide (schar % 2 = 1)
    if line == bit then
      let r := txBits bit_time startT n (c + 1) (schar / 2) (!line)
      ((startT + (c : ℚ) * bit_time) :: r.1, r.2)
    else txBits bit_time startT n (c + 1) (schar / 2) line

/-- One character of serial_tx: the unconditional start-bit edge, the data
bits, the optional parity bit and the stop transition, together with the
start time of the next character (the end of this frame). -/
def txChar (bit_time : ℚ) (char_bits : ℕ) (parity : Parity) (stop_bits : ℕ)
    (startT : ℚ) (ch : ℕ) : List ℚ × ℚ :=
  let data := txBits bit_time startT char_bits 1 ch true
  let c1 := char_bits
  let par : List ℚ × Bool × ℕ :=
    match parity with
    | .off => (([] : List ℚ), data.2, c1)
    | p =>
      let mask := parityMaskLoop (char_bits - 5) 31
      let ones0 := parity_ (ch &&& mask)
      let ones := if p = Parity.odd then ones0 ^^^ 1 else ones0
      let c2 := c1 + 1
      if data.2 == decide (ones = 1) then
        ([startT + (c2 : ℚ) * bit_time], !data.2, c2)
      else ([], data.2, c2)
  let c3 := par.2.2 + 1
  let stopE : List ℚ := if par.2.1 then [startT + (c3 : ℚ) * bit_time] else []
  (startT :: (data.1 ++ par.1 ++ stopE), startT + ((c3 : ℚ) + (stop_bits : ℚ)) * bit_time)

/-- The char loop of serial_tx over the zipped chars and times.  The source
initializes prev_start to 0 and never updates it, so a character is delayed
only when its start time is negative; the final accumulator value is the
next free line time of the last character, which becomes the signal end. -/
def txLoop (bit_time : ℚ) (char_bits : ℕ) (parity : Parity) (stop_bits : ℕ) :
    List (ℕ × ℚ) → List ℚ × ℚ
  | [] => ([], 0)
  | (ch, t) :: rest =>
    let startEff := if (0 : ℚ) > t then 0 else t
    let blk := txChar bit_time char_bits parity stop_bits startEff ch
    match rest with
    | [] => blk
    | r :: rs =>
      let tail := txLoop bit_time char_bits parity stop_bits (r :: rs)
      (blk.1 ++ tail.1, tail.2)

/-- serial_tx: build the serial line signal for a list of characters and
their start times.  An empty times list raises IndexError on times[0]; the
initial signal construction validates with end = times[-1]; an empty char
list (empty zip) leaves the loop variable start unbound and raises
NameError at the final end assignment, as does char_bits = 0 at the first
c = c + 1 of a character. -/
def serial_tx (chars : List ℕ) (times : List ℚ) (char_bits : ℕ)
    (parity : Parity) (stop_bits : ℕ) (baud : ℚ) (tscale : ℚ) :
    Except Err Signal :=
  match h : times with
  | [] => .error .indexError
  | t0 :: _ => do
    let sline0 ← mkSignal (some t0) [] (some (times.getLast (by simp [h])))
      false tscale
    let bit_time := tscale / baud
    let pairs := chars.zip times
    if pairs = [] then .error .nameError
    else if char_bits = 0 then .error .nameError
    else
      let r := txLoop bit_time char_bits parity stop_bits pairs
      .ok { sline0 with edges := r.1, end_ := some r.2 }

/-- Serial receive status bits of the source: parity error, stop error and
end-of-signal while receiving the char, the parity bit or the stop bits. -/
def PARITY_ERROR : ℕ := 1
/-- Stop bit error status bit. -/
def STOP_ERROR : ℕ := 2
/-- End of signal while sampling character bits. -/
def EOS_CHAR : ℕ := 32
/-- End of signal while sampling the parity bit. -/
def EOS_PARITY : ℕ := 48
/-- End of signal while sampling the stop bits. -/
def EOS_STOP : ℕ := 64

/-- The char_mask table of serial_rx; an out of range char_bits raises
IndexError at its use sites inside the sampling loops. -/
def charMaskList : List ℕ := [0, 0, 0, 0, 0, 16, 32, 64, 128]

/-- Result of the char-bit sampling loop of serial_rx: either the signal
ended during the character or the assembled character with the last sample
time and edge position. -/
inductive RxBits where
  | eos (char : ℕ)
  | more (char : ℕ) (sample : ℚ) (tpos : ℕ)
deriving DecidableEq, Repr

/-- The end-of-signal filler of serial_rx: for each remaining bit, shift the
char right and or in the top-bit mask. -/
def rxFill (mask : ℕ) : ℕ → ℕ → ℕ
  | 0, ch => ch
  | j + 1, ch => rxFill mask j (ch / 2 ||| mask)

/-- The char sampling loop of serial_rx: sample n bit cells at successive
bit period midpoints; a level of 0 codes a set bit (or-ing the top-bit
mask after the right shift).  The mask lookup is resolved lazily, as the
source indexes char_mask only at these sites. -/
def rxBits (sline : Signal) (bit_time : ℚ) (maskOpt : Option ℕ) :
    ℕ → ℕ → ℚ → ℕ → Except Err RxBits
  | 0, char, sample, tpos => .ok (.more char sample tpos)
  | n + 1, char, sample, tpos =>
    let sample' := sample + bit_time
    match level sline sample' tpos with
    | none =>
      match maskOpt with
      | none => .error .indexError
      | some mask => .ok (.eos (rxFill mask (n + 1) char))
    | some (lvl, tpos') =>
      if lvl then rxBits sline bit_time maskOpt n (char / 2) sample' tpos'
      else
        match maskOpt with
        | none => .error .indexError
        | some mask =>
          rxBits sline bit_time maskOpt n (char / 2 ||| mask) sample' tpos'

/-- The stop-bit sampling loop of serial_rx: sample stop_bits cells; a
sample past the signal end sets the end-of-signal-in-stop status and ends
the receive; a high sample sets the stop error bit. -/
def rxStops (sline : Signal) (bit_time : ℚ) :
    ℕ → ℚ → ℕ → ℕ → (Bool × ℕ × ℚ × ℕ)
  | 0, sample, tpos, st => (false, st, sample, tpos)
  | n + 1, sample, tpos, st =>
    let sample' := sample + bit_time
    match level sline sample' tpos with
    | none => (true, st ||| EOS_STOP, sample', tpos)
    | some (lvl, tpos') =>
      if lvl then rxStops sline bit_time n sample' tpos' (st ||| STOP_ERROR)
      else rxStops sline bit_time n sample' tpos' st

/-- The main sampling loop of serial_rx, one iteration of the source's
while True per unit of fuel.  An idle (low) start-bit sample jumps to the
next edge, or spins in place when no edge remains; running out of fuel
stands for non-termination of the source loop. -/
def rxLoop (sline : Signal) (bit_time : ℚ) (char_bits : ℕ) (parity : Parity)
    (stop_bits : ℕ) (maskOpt : Option ℕ) :
    ℕ → ℚ → ℕ → ℕ → List ℕ × List ℚ × List ℕ →
    Except Err (List ℕ × List ℚ × List ℕ)
  | 0, _, _, _, _ => .error .fuelExhausted
  | fuel + 1, startT, tpos, char, acc =>
    let sample := startT + bit_time / 2
    match level sline sample tpos with
    | none => .ok acc
    | some (lvl, tpos') =>
      if !lvl then
        match sline.edges.get? tpos' with
        | some e => rxLoop sline bit_time char_bits parity stop_bits maskOpt
            fuel e tpos' char acc
        | none => rxLoop sline bit_time char_bits parity stop_bits maskOpt
            fuel startT tpos' char acc
      else
        match rxBits sline bit_time maskOpt char_bits char sample tpos' with
        | .error e => .error e
        | .ok (.eos charF) =>
          .ok (acc.1 ++ [charF], acc.2.1 ++ [startT], acc.2.2 ++ [EOS_CHAR])
        | .ok (.more charF sample2 tpos2) =>
          let chars2 := acc.1 ++ [charF]
          let times2 := acc.2.1 ++ [startT]
          let parityStep :
              Option (ℕ × ℚ × ℕ) × Option (List ℕ × List ℚ × List ℕ) :=
            match parity with
            | .off => (some (0, sample2, tpos2), none)
            | p =>
              let ones0 := parity_ charF
              let ones := if p = .odd then ones0 ^^^ 1 else ones0
              let sample3 := sample2 + bit_time
              match level sline sample3 tpos2 with
              | none => (none, some (chars2, times2, acc.2.2 ++ [EOS_PARITY]))
              | some (plvl, tpos3) =>
                if plvl == decide (ones = 1) then
                  (some (PARITY_ERROR, sample3, tpos3), none)
                else (some (0, sample3, tpos3), none)
          match parityStep with
          | (_, some out) => .ok out
          | (some (st0, sampleP, tposP), _) =>
            let stp := rxStops sline bit_time stop_bits sampleP tposP st0
            if stp.1 then .ok (chars2, times2, acc.2.2 ++ [stp.2.1])
            else
              rxLoop sline bit_time char_bits parity stop_bits maskOpt fuel
                (stp.2.2.1 + bit_time / 2) stp.2.2.2 charF
                (chars2, times2, acc.2.2 ++ [stp.2.1])
          | (none, none) => .error .fuelExhausted

/-- serial_rx: decode a serial line signal by midpoint sampling.  A void
signal or a signal without edges yields empty results; fuel bounds the
number of iterations of the source's unbounded loop. -/
def serial_rx (sline : Signal) (char_bits : ℕ) (parity : Parity)
    (stop_bits : ℕ) (baud : ℚ) (fuel : ℕ) :
    Except Err (List ℕ × List ℚ × List ℕ) :=
  if !(nonvoid sline) then .ok ([], [], [])
  else
    let bit_time := sline.tscale / baud
    match sline.edges with
    | [] => .ok ([], [], [])
    | e0 :: _ =>
      rxLoop sline bit_time char_bits parity stop_bits
        (charMaskList.get? char_bits) fuel e0 0 0 ([], [], [])

/-- The serial round trip: transmit a list of characters at their start
times, then receive the resulting line signal with the same parameters. -/
def serialRoundTrip (chars : List ℕ) (times : List ℚ) (char_bits : ℕ)
    (parity : Parity) (stop_bits : ℕ) (baud : ℚ) (tscale : ℚ) (fuel : ℕ) :
    Except Err (List ℕ × List ℚ × List ℕ) := do
  let s ← serial_tx chars times char_bits parity stop_bits baud tscale
  serial_rx s char_bits parity stop_bits baud fuel

/-! Analysis scaffolding for the serial codec proofs: the cell-level view of
a transmitted character.  These definitions are not part of the source
translation; they give names to the level sequence that one serial frame
drives onto the line, and the theorems below connect them to serial_tx and
serial_rx. -/

/-- Number of parity cells of a frame: 0 when parity is off, else 1. -/
def parN : Parity → ℕ
  | .off => 0
  | _ => 1

/-- The n low bits of a value, least significant first. -/
def bitsOf : ℕ → ℕ → List Bool
  | _, 0 => []
  | v, n + 1 => decide (v % 2 = 1) :: bitsOf (v / 2) n

/-- Toggle encoding of a level sequence: starting at cell c with the line at
a given level, emit an edge at the start of each cell whose level differs
from the line level, and report the final line level. -/
def toggleRun (bt s : ℚ) : ℕ → List Bool → Bool → List ℚ × Bool
  | _, [], line => ([], line)
  | c, l :: ls, line =>
    let r := toggleRun bt s (c + 1) ls l
    (if line ≠ l then (s + (c : ℚ) * bt) :: r.1 else r.1, r.2)

/-- The line level of each cell of one serial frame: the high start bit, the
inverted data bits LSB first, the optional inverted parity bit, and the
return to the low idle level for the stop bits. -/
def cellLevels (char_bits : ℕ) (parity : Parity) (ch : ℕ) : List Bool :=
  true :: ((bitsOf ch char_bits).map not ++
    (match parity with
     | .off => []
     | p =>
       let mask := parityMaskLoop (char_bits - 5) 31
       let ones0 := parity_ (ch &&& mask)
       let ones := if p = Parity.odd then ones0 ^^^ 1 else ones0
       [!(decide (ones = 1))]) ++ [false])

/-- The concatenated per-character edge blocks of serial_tx over a list of
(char, start time) pairs. -/
def txBlocks (bt : ℚ) (cb : ℕ) (par : Parity) (sb : ℕ) : List (ℕ × ℚ) → List ℚ
  | [] => []
  | (ch, t) :: rest =>
    (txChar bt cb par sb t ch).1 ++ txBlocks bt cb par sb rest

/-- The end time of the frame of one (char, start time) pair. -/
def frameEnd (bt : ℚ) (cb : ℕ) (par : Parity) (sb : ℕ) (p : ℕ × ℚ) : ℚ :=
  (txChar bt cb par sb p.2 p.1).2

/-- The character-register transform of the serial_rx bit sampling loop
over a list of received bits: shift right, or in the top-bit mask for each
set bit. -/
def assemble (mask : ℕ) : ℕ → List Bool → ℕ
  | c, [] => c
  | c, b :: bs => assemble mask (if b then c / 2 ||| mask else c / 2) bs

/-- The transmitted parity count of serial_tx: the parity of the masked
character, inverted once for odd parity. -/
def txOnes (cb : ℕ) (par : Parity) (ch : ℕ) : ℕ :=
  let ones0 := parity_ (ch &&& parityMaskLoop (cb - 5) 31)
  if par = Parity.odd then ones0 ^^^ 1 else ones0

/-! Helper lemmas. -/

theorem pyLt_some_some (a b : ℚ) : pyLt (some a) (some b) = decide (a < b) := rfl

theorem pyLe_some_some (a b : ℚ) : pyLe (some a) (some b) = decide (a ≤ b) := rfl

theorem pyLe_eq_not_pyLt (x y : Option ℚ) : pyLe x y = !(pyLt y x) := by
  rcases x with _ | a <;> rcases y with _ | b <;>
    simp [pyLe, pyLt, ← decide_not, not_lt]

theorem lxor_zero (b : Bool) : lxor 0 b = b := by simp [lxor]

theorem getLastD_cons_mem (e0 : ℚ) (rest : List ℚ) :
    (e0 :: rest).getLastD e0 ∈ e0 :: rest := by
  have h := List.getLastD_mem_cons rest e0
  cases rest with
  | nil => simp
  | cons x xs => simpa [List.getLastD] using h

theorem takeWhile_append_all {p : ℚ → Bool} :
    ∀ {l₁ : List ℚ} (l₂ : List ℚ), (∀ x ∈ l₁, p x = true) →
      (l₁ ++ l₂).takeWhile p = l₁ ++ l₂.takeWhile p
  | [], l₂, _ => rfl
  | x :: xs, l₂, h => by
    have hx : p x = true := h x (by simp)
    simp only [List.cons_append, List.takeWhile_cons_of_pos hx]
    rw [takeWhile_append_all l₂ (fun y hy => h y (by simp [hy]))]

theorem takeWhile_drop {p : ℚ → Bool} :
    ∀ (l : List ℚ) (j : ℕ), j ≤ (l.takeWhile p).length →
      (l.drop j).takeWhile p = (l.takeWhile p).drop j
  | _, 0, _ => by simp
  | [], j + 1, h => by simp at h
  | x :: xs, j + 1, h => by
    have hx : p x = true := by
      by_contra hx
      rw [List.takeWhile_cons_of_neg (by simpa using hx)] at h
      simp at h
    rw [List.takeWhile_cons_of_pos hx] at h ⊢
    simpa using takeWhile_drop xs j (by simpa using h)

/-- Characterization of Signal.level under a split of the edge list into a
part known to lie before the queried time and a remainder: the scan lands
at the boundary position regardless of the starting hint, as long as the
hint does not overshoot it. -/
theorem level_split (s : Signal) (u v : List ℚ) (θ : ℚ) (tpos : ℕ)
    (huv : s.edges = u ++ v)
    (hu : ∀ x ∈ u, x < θ)
    (ht : tpos ≤ u.length + (v.takeWhile (fun e => decide (e < θ))).length) :
    level s θ tpos =
      if (v.takeWhile (fun e => decide (e < θ))).length = v.length then
        (if pyLt s.end_ (some θ) = true then none
         else some (lxor s.edges.length s.slevel, s.edges.length))
      else some
        (lxor (u.length + (v.takeWhile (fun e => decide (e < θ))).length) s.slevel,
          u.length + (v.takeWhile (fun e => decide (e < θ))).length) := by
  have hle : (v.takeWhile (fun e => decide (e < θ))).length ≤ v.length :=
    (List.takeWhile_prefix _).length_le
  simp only [level, huv]
  by_cases hcase : tpos ≤ u.length
  · rw [List.drop_append_of_le_length hcase]
    rw [takeWhile_append_all v (fun x hx => by
      simpa using hu x (List.mem_of_mem_drop hx))]
    have hlen1 : (u.drop tpos ++ v.takeWhile (fun e => decide (e < θ))).length
        = (u.length - tpos) + (v.takeWhile (fun e => decide (e < θ))).length := by
      simp
    have hlen2 : (u.drop tpos ++ v).length = (u.length - tpos) + v.length := by
      simp
    rw [hlen1, hlen2]
    by_cases hex : (v.takeWhile (fun e => decide (e < θ))).length = v.length
    · rw [if_pos (by omega), if_pos hex]
    · rw [if_neg (by omega), if_neg hex]
      have : tpos + ((u.length - tpos) + (v.takeWhile (fun e => decide (e < θ))).length)
          = u.length + (v.takeWhile (fun e => decide (e < θ))).length := by omega
      rw [this]
  · push_neg at hcase
    have hj : tpos = u.length + (tpos - u.length) := by omega
    rw [hj, List.drop_append]
    have hjle : tpos - u.length ≤ (v.takeWhile (fun e => decide (e < θ))).length := by
      omega
    rw [takeWhile_drop v (tpos - u.length) hjle]
    have hlen1 : ((v.takeWhile (fun e => decide (e < θ))).drop (tpos - u.length)).length
        = (v.takeWhile (fun e => decide (e < θ))).length - (tpos - u.length) := by
      simp
    have hlen2 : (v.drop (tpos - u.length)).length = v.length - (tpos - u.length) := by
      simp
    rw [hlen1, hlen2]
    by_cases hex : (v.takeWhile (fun e => decide (e < θ))).length = v.length
    · rw [if_pos (by omega), if_pos hex]
    · rw [if_neg (by omega), if_neg hex]
      have : u.length + (tpos - u.length) +
          ((v.takeWhile (fun e => decide (e < θ))).length - (tpos - u.length))
          = u.length + (v.takeWhile (fun e => decide (e < θ))).length := by omega
      rw [this]

/-- A strict chain of edges passes the ascending-edges loop. -/
theorem ascends_of_chain : ∀ {l : List ℚ}, List.Chain' (· < ·) l → ascends l = true
  | [], _ => rfl
  | [_], _ => rfl
  | x :: y :: ys, h => by
    obtain ⟨hxy, h'⟩ := List.chain'_cons.mp h
    simp [ascends, hxy, ascends_of_chain h']

/-- The validating constructor succeeds when the start precedes the end (or
start is falsy), every edge lies between start and end, and the edges
ascend strictly. -/
theorem mkSignal_ok (st : Option ℚ) (edges : List ℚ) (en : Option ℚ)
    (sl : Bool) (ts : ℚ)
    (h1 : (pyTruthy st && !(pyLt st en)) = false)
    (h2 : ∀ x ∈ edges, pyLe st (some x) = true)
    (h3 : ∀ x ∈ edges, pyLe (some x) en = true)
    (h4 : List.Chain' (· < ·) edges) :
    mkSignal st edges en sl ts = .ok ⟨st, edges, en, sl, ts⟩ := by
  unfold mkSignal
  cases edges with
  | nil => simp [h1]
  | cons e0 rest =>
    have ha := h2 e0 (by simp)
    have hb := h3 ((e0 :: rest).getLastD e0) (getLastD_cons_mem e0 rest)
    simp [h1, ha, ascends_of_chain h4]
    simpa [List.getLastD_eq_getLast?] using hb

/-! Claim theorems. -/

/-- C2 counterexample: on the base signal with start 0, end 6, edges
[0,2,3,4,6] and slevel 0, the logic and of base with shift(base, 2) is not
equal (under the library equality) to the signal with start 2, end 6,
edges [2,4,5,6] and slevel 0 claimed by the spec. -/
theorem and_scenario_counterexample :
    (shift ⟨some 0, [0, 2, 3, 4, 6], some 6, false, 1⟩ 2).map
      (fun sh => pyEq (sigAnd ⟨some 0, [0, 2, 3, 4, 6], some 6, false, 1⟩ sh)
        ⟨some 2, [2, 4, 5, 6], some 6, false, 1⟩) = .ok false := by
  with_unfolding_all rfl

/-- C2 (amended): on the base signal with start 0, end 6, edges [0,2,3,4,6]
and slevel 0, the logic and of base with shift(base, 2) equals the signal
with start 2, end 6, edges [3,4], slevel 0 and the default time scale. -/
theorem and_scenario :
    (shift ⟨some 0, [0, 2, 3, 4, 6], some 6, false, 1⟩ 2).map
      (fun sh => sigAnd ⟨some 0, [0, 2, 3, 4, 6], some 6, false, 1⟩ sh)
    = .ok ⟨some 2, [3, 4], some 6, false, 1⟩ := by
  with_unfolding_all rfl

/-- C3: join of two non-void signals that overlap in time, or whose end
level and start level disagree, raises an assertion error to the caller
(for both the in-place join used by append and the non-in-place join); no
void or other silent result is returned. -/
theorem join_fail_fast (a b : Signal) (ip : Bool)
    (ha : nonvoid a = true) (hb : nonvoid b = true)
    (h : pyLt b.start a.end_ = true ∨ end_level a ≠ b.slevel) :
    join a b ip = .error .assertionError := by
  unfold join
  rw [ha, hb]
  by_cases hov : pyLe a.end_ b.start = true
  · have hlv : (end_level a != b.slevel) = true := by
      rcases h with h | h
      · exfalso
        rw [pyLe_eq_not_pyLt, h] at hov
        simp at hov
      · simpa using h
    rw [hov, hlv]
    simp
  · rw [Bool.not_eq_true] at hov
    rw [hov]
    simp

/-- C3 witness: two concrete overlapping non-void signals make join raise. -/
theorem join_fail_fast_witness :
    nonvoid ⟨some 0, [], some 2, false, 1⟩ = true ∧
    nonvoid ⟨some 1, [], some 3, false, 1⟩ = true ∧
    pyLt (Signal.start ⟨some 1, [], some 3, false, 1⟩)
      (Signal.end_ ⟨some 0, [], some 2, false, 1⟩) = true ∧
    join ⟨some 0, [], some 2, false, 1⟩ ⟨some 1, [], some 3, false, 1⟩ false
      = .error .assertionError :=
  ⟨by decide, by decide, by decide,
    join_fail_fast ⟨some 0, [], some 2, false, 1⟩ ⟨some 1, [], some 3, false, 1⟩
      false (by decide) (by decide) (Or.inl (by decide))⟩

/-- C4 counterexample: splitting a signal carrying a non-default time scale
strictly inside its domain and joining the parts back yields a signal whose
time scale has been reset to 1.0, which the library equality distinguishes
from the original. -/
theorem split_join_counterexample :
    (0 : ℚ) < 1 ∧ (1 : ℚ) < 2 ∧
    (do
      let p ← split ⟨some 0, [1], some 2, false, 2⟩ 1 false
      join p.1 p.2 false) = .ok ⟨some 0, [1], some 2, false, 1⟩ ∧
    pyEq ⟨some 0, [1], some 2, false, 1⟩ ⟨some 0, [1], some 2, false, 2⟩
      = false := by
  refine ⟨by norm_num, by norm_num, ?_, by decide⟩
  with_unfolding_all rfl

/-- C4 (amended): for a non-void signal with valid timing whose time scale
is the default 1.0, splitting at any time strictly inside the domain and
joining the two parts (non-in-place) returns the original signal; for a
non-default time scale the join result differs exactly in the reset
tscale field. -/
theorem split_join_inverse (s : Signal) (a b t : ℚ)
    (hs : s.start = some a) (he : s.end_ = some b)
    (hchain : List.Chain' (· < ·) s.edges)
    (hmem : ∀ e ∈ s.edges, a ≤ e ∧ e ≤ b)
    (hts : s.tscale = 1)
    (h1 : a < t) (h2 : t < b) :
    ∃ older newer, split s t false = .ok (older, newer) ∧
      join older newer false = .ok s := by
  have hlt : pyLt s.end_ (some t) = false := by
    simp [he, pyLt, not_lt.mpr (le_of_lt h2)]
  have hlev := level_split s [] s.edges t 0 (by simp) (by simp) (by simp)
  have hlev' : level s t 0 = some
      (lxor (s.edges.takeWhile (fun e => decide (e < t))).length s.slevel,
        (s.edges.takeWhile (fun e => decide (e < t))).length) := by
    rw [hlev, hlt]
    by_cases hex : (s.edges.takeWhile (fun e => decide (e < t))).length
        = s.edges.length
    · rw [if_pos hex]
      simp [hex]
    · rw [if_neg hex]
      simp
  have htake : s.edges.take (s.edges.takeWhile (fun e => decide (e < t))).length
      = s.edges.takeWhile (fun e => decide (e < t)) :=
    (List.prefix_iff_eq_take.mp (List.takeWhile_prefix _)).symm
  have hdrop : s.edges.drop (s.edges.takeWhile (fun e => decide (e < t))).length
      = s.edges.dropWhile (fun e => decide (e < t)) := by
    have hta := List.take_append_drop
      (s.edges.takeWhile (fun e => decide (e < t))).length s.edges
    rw [htake] at hta
    exact List.append_cancel_left
      (hta.trans (List.takeWhile_append_dropWhile _ s.edges).symm)
  have hmk1 : mkSignal s.start
      (s.edges.take (s.edges.takeWhile (fun e => decide (e < t))).length)
      (some t) s.slevel s.tscale
      = .ok ⟨s.start, s.edges.takeWhile (fun e => decide (e < t)), some t,
          s.slevel, s.tscale⟩ := by
    rw [htake]
    apply mkSignal_ok
    · rw [hs]
      have hx : pyLt (some a) (some t) = true := by
        simp [pyLt, h1]
      rw [hx]
      simp
    · intro x hx
      rw [hs, pyLe_some_some]
      simp [(hmem x ((List.takeWhile_prefix _).subset hx)).1]
    · intro x hx
      rw [pyLe_some_some]
      have := List.mem_takeWhile_imp hx
      simp at this
      simp [le_of_lt this]
    · exact hchain.prefix (List.takeWhile_prefix _)
  have hdw : ∀ x ∈ s.edges.dropWhile (fun e => decide (e < t)), t ≤ x := by
    intro x hx
    rcases hd : s.edges.dropWhile (fun e => decide (e < t)) with _ | ⟨y, ys⟩
    · rw [hd] at hx
      cases hx
    · have hy : t ≤ y := by
        have h0 : 0 < (s.edges.dropWhile (fun e => decide (e < t))).length := by
          rw [hd]; simp
        have := List.dropWhile_get_zero_not (fun e => decide (e < t)) s.edges h0
        have hget : (s.edges.dropWhile (fun e => decide (e < t))).get ⟨0, h0⟩ = y := by
          simp [hd]
        rw [hget] at this
        simpa using this
      have hpw : List.Pairwise (· < ·)
          (s.edges.dropWhile (fun e => decide (e < t))) :=
        List.chain'_iff_pairwise.mp (hchain.suffix (List.dropWhile_suffix _))
      rw [hd] at hx hpw
      rcases List.mem_cons.mp hx with hxy | hxys
      · exact hxy ▸ hy
      · exact le_trans hy (le_of_lt ((List.pairwise_cons.mp hpw).1 x hxys))
  have hmk2 : mkSignal (some t)
      (s.edges.drop (s.edges.takeWhile (fun e => decide (e < t))).length)
      s.end_ (lxor (s.edges.takeWhile (fun e => decide (e < t))).length s.slevel)
      s.tscale
      = .ok ⟨some t, s.edges.dropWhile (fun e => decide (e < t)), s.end_,
          lxor (s.edges.takeWhile (fun e => decide (e < t))).length s.slevel,
          s.tscale⟩ := by
    rw [hdrop]
    apply mkSignal_ok
    · rw [he]
      have hx : pyLt (some t) (some b) = true := by
        simp [pyLt, h2]
      rw [hx]
      simp
    · intro x hx
      rw [pyLe_some_some]
      simp [hdw x hx]
    · intro x hx
      rw [he, pyLe_some_some]
      simp [(hmem x ((List.dropWhile_suffix _).subset hx)).2]
    · exact hchain.suffix (List.dropWhile_suffix _)
  have hsplit : split s t false = .ok
      (⟨s.start, s.edges.takeWhile (fun e => decide (e < t)), some t,
        s.slevel, s.tscale⟩,
       ⟨some t, s.edges.dropWhile (fun e => decide (e < t)), s.end_,
        lxor (s.edges.takeWhile (fun e => decide (e < t))).length s.slevel,
        s.tscale⟩) := by
    unfold split
    have hnv : nonvoid s = true := by simp [nonvoid, hs]
    have hc1 : pyLe (some t) s.start = false := by
      simp [hs, pyLe, not_le.mpr h1]
    have hc2 : pyLe s.end_ (some t) = false := by
      simp [he, pyLe, not_le.mpr h2]
    rw [hnv, hc1, hc2, hlev']
    simp only [Bool.not_true, Bool.false_eq_true, if_false]
    rw [hmk1, hmk2]
    rfl
  refine ⟨_, _, hsplit, ?_⟩
  unfold join
  have hnv1 : nonvoid
      (⟨some t, s.edges.dropWhile (fun e => decide (e < t)), s.end_,
        lxor (s.edges.takeWhile (fun e => decide (e < t))).length s.slevel,
        s.tscale⟩ : Signal) = true := by
    simp [nonvoid]
  have hnv2 : nonvoid
      (⟨s.start, s.edges.takeWhile (fun e => decide (e < t)), some t,
        s.slevel, s.tscale⟩ : Signal) = true := by
    simp [nonvoid, hs]
  rw [hnv1, hnv2]
  have hov : pyLe (some t) (some t) = true := by simp [pyLe]
  have hbl : end_level
      (⟨s.start, s.edges.takeWhile (fun e => decide (e < t)), some t,
        s.slevel, s.tscale⟩ : Signal)
      = lxor (s.edges.takeWhile (fun e => decide (e < t))).length s.slevel := rfl
  simp only [hov, hbl, Bool.not_true, Bool.false_eq_true, if_false,
    bne_self_eq_false]
  have hfin : mkSignal s.start
      (s.edges.takeWhile (fun e => decide (e < t)) ++
        s.edges.dropWhile (fun e => decide (e < t)))
      s.end_ s.slevel 1 = .ok ⟨s.start, s.edges, s.end_, s.slevel, 1⟩ := by
    rw [List.takeWhile_append_dropWhile]
    apply mkSignal_ok
    · rw [hs, he]
      have hx : pyLt (some a) (some b) = true := by
        simp [pyLt]
        linarith
      rw [hx]
      simp
    · intro x hx
      rw [hs, pyLe_some_some]
      simp [(hmem x hx).1]
    · intro x hx
      rw [he, pyLe_some_some]
      simp [(hmem x hx).2]
    · exact hchain
  rw [hfin]
  have : s = ⟨s.start, s.edges, s.end_, s.slevel, 1⟩ := by rw [← hts]
  rw [← this]

/-- C4 witness: split and join recompose a concrete default-scale signal. -/
theorem split_join_inverse_witness :
    ∃ older newer, split ⟨some 0, [1, 2], some 3, false, 1⟩ 2 false
        = .ok (older, newer) ∧
      join older newer false = .ok ⟨some 0, [1, 2], some 3, false, 1⟩ :=
  split_join_inverse ⟨some 0, [1, 2], some 3, false, 1⟩ 0 3 2 rfl rfl
    (by norm_num) (by norm_num) rfl (by norm_num) (by norm_num)

/-- C5 counterexample: the constructor accepts a non-void signal whose
start time 0 equals its end time, because the source guards the start
versus end check with the truthiness of start and 0 is falsy. -/
theorem init_zero_start_counterexample :
    mkSignal (some 0) [] (some 0) false 1 = .ok ⟨some 0, [], some 0, false, 1⟩ := by
  rfl

/-- C5 (amended): constructing a non-void signal whose start time is
greater than or equal to its end time raises a validation error whenever
the start time is nonzero; with start time 0 (falsy in Python) the check is
skipped. -/
theorem init_rejects_start_ge_end (a b : ℚ) (edges : List ℚ) (sl : Bool)
    (ts : ℚ) (ha : a ≠ 0) (hba : b ≤ a) :
    mkSignal (some a) edges (some b) sl ts = .error .valueError := by
  unfold mkSignal
  have h1 : pyTruthy (some a) = true := by simp [pyTruthy, ha]
  have h2 : pyLt (some a) (some b) = false := by
    simp [pyLt, not_lt.mpr hba]
  rw [h1, h2]
  simp

/-- C5 witness: start 1 at or past end 0 is rejected. -/
theorem init_rejects_start_ge_end_witness :
    (1 : ℚ) ≠ 0 ∧ (0 : ℚ) ≤ 1 ∧
    mkSignal (some 1) [] (some 0) false 1 = .error .valueError :=
  ⟨by decide, by decide,
    init_rejects_start_ge_end 1 0 [] false 1 (by decide) (by decide)⟩

/-- C6: for a non-void signal with numeric start a and end b, the absolute
integrals at level 1 and level 0 are defined and sum to the elapse b - a. -/
theorem integral_complement (s : Signal) (a b : ℚ)
    (hs : s.start = some a) (he : s.end_ = some b) :
    ∃ p q, integral s true false = .ok (some p) ∧
      integral s false false = .ok (some q) ∧
      p + q = b - a ∧ elapse s = .ok (some (b - a)) := by
  cases hsl : s.slevel
  · refine ⟨edgesInt b s.edges, b - a - edgesInt b s.edges, ?_, ?_, by ring, ?_⟩
    · simp [integral, hs, he, hsl]
    · simp [integral, hs, he, hsl]
    · simp [elapse, hs, he]
  · refine ⟨b - a - edgesInt b s.edges, edgesInt b s.edges, ?_, ?_, by ring, ?_⟩
    · simp [integral, hs, he, hsl]
    · simp [integral, hs, he, hsl]
    · simp [elapse, hs, he]

/-- C6 witness: the integral complement on a concrete signal. -/
theorem integral_complement_witness :
    ∃ p q,
      integral ⟨some 0, [1, 2, 4], some 5, false, 1⟩ true false = .ok (some p) ∧
      integral ⟨some 0, [1, 2, 4], some 5, false, 1⟩ false false = .ok (some q) ∧
      p + q = (5 : ℚ) - 0 ∧
      elapse ⟨some 0, [1, 2, 4], some 5, false, 1⟩ = .ok (some ((5 : ℚ) - 0)) :=
  integral_complement ⟨some 0, [1, 2, 4], some 5, false, 1⟩ 0 5 rfl rfl

/-- C7 counterexample: bin2pwm on the empty list of bit fields raises
NameError (the local variable end is never assigned), rather than
returning the void signal. -/
theorem bin2pwm_empty_counterexample :
    bin2pwm [] 1 2 4 true 0 1 = .error .nameError := by
  rfl

/-- C7 (amended): bin2pwm on a single bit field with bit count 0 returns
the void signal without failing; on the empty list it raises NameError. -/
theorem bin2pwm_zero_bits (v : ℕ) (e0 e1 p : ℚ) (act : Bool) (o ts : ℚ) :
    bin2pwm [(0, v)] e0 e1 p act o ts = .ok voidSignal := by
  simp [bin2pwm, pwmBits]

/-- C8: for a non-void signal satisfying the data model invariants, level
with hint 0 returns None exactly when the queried time exceeds the signal
end; in particular every time at or before the end gets a level, and a time
strictly before the start (no edges precede it) gets the start level with
edge position 0, as if the time were inside the domain. -/
theorem level_domain_boundary (s : Signal) (a b t : ℚ)
    (hs : s.start = some a) (he : s.end_ = some b) (hab : a < b)
    (hlo : ∀ e ∈ s.edges, a ≤ e) (hhi : ∀ e ∈ s.edges, e ≤ b) :
    (level s t 0 = none ↔ b < t) ∧
    (t < a → level s t 0 = some (s.slevel, 0)) := by
  constructor
  · constructor
    · intro h
      simp only [level, List.drop_zero] at h
      split_ifs at h with hk hp
      all_goals first
        | (rw [he] at hp; simpa [pyLt] using hp)
        | simp at h
    · intro hbt
      have hall : s.edges.takeWhile (fun e => decide (e < t)) = s.edges :=
        List.takeWhile_eq_self_iff.mpr (fun x hx => by
          simpa using lt_of_le_of_lt (hhi x hx) hbt)
      simp only [level, List.drop_zero]
      rw [hall, if_pos rfl, he]
      simp [pyLt, hbt]
  · intro hta
    simp only [level, List.drop_zero]
    cases hed : s.edges with
    | nil => simp [hed, he, pyLt, lxor, not_lt.mpr (le_of_lt (lt_trans hta hab))]
    | cons e es =>
      have hne : decide (e < t) = false := by
        have h1 : a ≤ e := hlo e (by simp [hed])
        simp only [decide_eq_false_iff_not, not_lt]
        linarith
      simp [List.takeWhile_cons, hne, lxor]

/-- C8 witness: the boundary behavior on a concrete valid signal and a time
strictly before its start. -/
theorem level_domain_boundary_witness :
    ((level ⟨some 0, [1, 2], some 3, false, 1⟩ (-1) 0 = none ↔ (3 : ℚ) < -1) ∧
     ((-1 : ℚ) < 0 →
       level ⟨some 0, [1, 2], some 3, false, 1⟩ (-1) 0 = some (false, 0))) :=
  level_domain_boundary ⟨some 0, [1, 2], some 3, false, 1⟩ 0 3 (-1) rfl rfl
    (by norm_num) (by decide) (by decide)

/-- C9 counterexample: a joinable pair of non-void signals (adjacent, with
matching boundary levels) for which non-in-place join does not return a
signal at all: both signals carry an edge at the common boundary time 1, so
the validating constructor of the result rejects the concatenated edge list
as non-ascending and join raises a ValueError. -/
theorem join_tscale_counterexample :
    nonvoid ⟨some 0, [1], some 1, false, 1⟩ = true ∧
    nonvoid ⟨some 1, [1], some 2, true, 1⟩ = true ∧
    pyLe (Signal.end_ ⟨some 0, [1], some 1, false, 1⟩)
      (Signal.start ⟨some 1, [1], some 2, true, 1⟩) = true ∧
    end_level ⟨some 0, [1], some 1, false, 1⟩
      = Signal.slevel ⟨some 1, [1], some 2, true, 1⟩ ∧
    join ⟨some 0, [1], some 1, false, 1⟩ ⟨some 1, [1], some 2, true, 1⟩ false
      = .error .valueError := by
  refine ⟨by decide, by decide, by decide, by decide, ?_⟩
  with_unfolding_all rfl

/-- C9 (amended): for joinable non-void signals satisfying the data model
invariants whose boundary edges do not coincide, non-in-place join returns
the signal with start, slevel and leading edges from the first operand, end
and trailing edges from the second, and the time scale reset to the default
1.0 regardless of the operands' time scales. -/
theorem join_resets_tscale (a b : Signal) (sa ea sb eb : ℚ)
    (hsa : a.start = some sa) (hea : a.end_ = some ea)
    (hsb : b.start = some sb) (heb : b.end_ = some eb)
    (haa : sa < ea) (hbb : sb < eb)
    (hca : List.Chain' (· < ·) a.edges) (hcb : List.Chain' (· < ·) b.edges)
    (hma : ∀ e ∈ a.edges, sa ≤ e ∧ e ≤ ea)
    (hmb : ∀ e ∈ b.edges, sb ≤ e ∧ e ≤ eb)
    (hj : ea ≤ sb) (hl : end_level a = b.slevel)
    (hsep : ∀ x ∈ a.edges.getLast?, ∀ y ∈ b.edges.head?, x < y) :
    join a b false = .ok ⟨a.start, a.edges ++ b.edges, b.end_, a.slevel, 1⟩ := by
  have hna : nonvoid a = true := by simp [nonvoid, hsa]
  have hnb : nonvoid b = true := by simp [nonvoid, hsb]
  have hov : pyLe a.end_ b.start = true := by
    simp [hea, hsb, pyLe, hj]
  unfold join
  rw [hna, hnb, hov, hl]
  simp only [Bool.not_true, Bool.false_eq_true, if_false, bne_self_eq_false]
  have hmem : ∀ x ∈ a.edges ++ b.edges, sa ≤ x ∧ x ≤ eb := by
    intro x hx
    rcases List.mem_append.mp hx with hx | hx
    · exact ⟨(hma x hx).1, le_trans (hma x hx).2 (le_trans hj (le_of_lt hbb))⟩
    · exact ⟨le_trans (le_of_lt haa) (le_trans hj (hmb x hx).1), (hmb x hx).2⟩
  refine (mkSignal_ok a.start (a.edges ++ b.edges) b.end_ a.slevel 1 ?_ ?_ ?_ ?_)
  · rw [hsa, heb]
    have : pyLt (some sa) (some eb) = true := by
      simp [pyLt]
      linarith
    rw [this]
    simp
  · intro x hx
    rw [hsa, pyLe_some_some]
    simp [(hmem x hx).1]
  · intro x hx
    rw [heb, pyLe_some_some]
    simp [(hmem x hx).2]
  · exact List.chain'_append.mpr ⟨hca, hcb, hsep⟩

/-- C9 witness: joining two concrete adjacent signals with non-default time
scales resets the result time scale to 1.0. -/
theorem join_resets_tscale_witness :
    join ⟨some 0, [1], some 2, false, 3⟩ ⟨some 2, [3], some 4, true, 5⟩ false
      = .ok ⟨some 0, [1, 3], some 4, false, 1⟩ :=
  join_resets_tscale ⟨some 0, [1], some 2, false, 3⟩
    ⟨some 2, [3], some 4, true, 5⟩ 0 2 2 4 rfl rfl rfl rfl (by norm_num)
    (by norm_num) (by simp) (by simp) (by norm_num) (by norm_num) (by decide)
    (by decide) (by simp)

/-- C10: chop with an origin at or past the signal end returns a one
element list holding the full signal unchanged. -/
theorem chop_late_origin (s : Signal) (a b o period : ℚ) (maxChops : ℕ)
    (hs : s.start = some a) (he : s.end_ = some b) (ho : b ≤ o) :
    chop s period (some o) maxChops = .ok [s] := by
  unfold chop
  rw [hs]
  have h1 : pyLe s.end_ (some o) = true := by simp [he, pyLe, ho]
  simp only [Option.getD_some, h1, if_true]

/-- C10 witness: chopping a concrete signal from an origin past its end. -/
theorem chop_late_origin_witness :
    Signal.start ⟨some 0, [1, 2], some 3, false, 1⟩ = some 0 ∧
    (3 : ℚ) ≤ 5 ∧
    chop ⟨some 0, [1, 2], some 3, false, 1⟩ 1 (some 5) 1000 = .ok
      [⟨some 0, [1, 2], some 3, false, 1⟩] :=
  ⟨rfl, by decide,
    chop_late_origin ⟨some 0, [1, 2], some 3, false, 1⟩ 0 3 5 1 1000 rfl rfl
      (by decide)⟩

/-! Serial codec lemmas (claim C1). -/

theorem bitsOf_length : ∀ (v n : ℕ), (bitsOf v n).length = n
  | _, 0 => rfl
  | v, n + 1 => by simp [bitsOf, bitsOf_length (v / 2) n]

theorem toggleRun_append (bt s : ℚ) (L1 L2 : List Bool) : ∀ (c : ℕ) (line : Bool),
    toggleRun bt s c (L1 ++ L2) line
      = ((toggleRun bt s c L1 line).1 ++
          (toggleRun bt s (c + L1.length) L2 (toggleRun bt s c L1 line).2).1,
        (toggleRun bt s (c + L1.length) L2 (toggleRun bt s c L1 line).2).2) := by
  induction L1 with
  | nil => intro c line; simp [toggleRun]
  | cons l ls ih =>
    intro c line
    by_cases h : line = l <;>
      simp [toggleRun, h, ih (c + 1) l, Nat.add_comm 1 ls.length,
        Nat.add_assoc]

theorem txBits_eq_toggle (bt s : ℚ) :
    ∀ (n c schar : ℕ) (line : Bool),
      txBits bt s n c schar line
        = toggleRun bt s c ((bitsOf schar n).map not) line := by
  intro n
  induction n with
  | zero => intro c schar line; simp [txBits, bitsOf, toggleRun]
  | succ n ih =>
    intro c schar line
    cases line <;> rcases hb : decide (schar % 2 = 1) with _ | _ <;>
      simp [txBits, bitsOf, toggleRun, hb, ih (c + 1) (schar / 2)]

theorem txChar_eq (bt : ℚ) (cb : ℕ) (par : Parity) (sb : ℕ) (t : ℚ) (ch : ℕ) :
    txChar bt cb par sb t ch
      = ((toggleRun bt t 0 (cellLevels cb par ch) false).1,
         t + (((cb + parN par + 1 : ℕ) : ℚ) + (sb : ℕ)) * bt) := by
  have hD : ((bitsOf ch cb).map not).length = cb := by simp [bitsOf_length]
  cases par with
  | off =>
    rcases hd2 : (txBits bt t cb 1 ch true).2 with _ | _ <;>
      simp [txChar, cellLevels, parN, toggleRun_append, toggleRun, hD,
        ← txBits_eq_toggle, hd2] <;>
      push_cast <;> ring_nf <;> simp
  | odd =>
    rcases hd2 : (txBits bt t cb 1 ch true).2 with _ | _ <;>
      by_cases ho : parity_ (ch &&& parityMaskLoop (cb - 5) 31) ^^^ 1 = 1 <;>
      simp [txChar, cellLevels, parN, toggleRun_append, toggleRun, hD,
        ← txBits_eq_toggle, hd2, ho] <;>
      push_cast <;> ring_nf <;> simp
  | even =>
    rcases hd2 : (txBits bt t cb 1 ch true).2 with _ | _ <;>
      by_cases ho : parity_ (ch &&& parityMaskLoop (cb - 5) 31) = 1 <;>
      simp [txChar, cellLevels, parN, toggleRun_append, toggleRun, hD,
        ← txBits_eq_toggle, hd2, ho] <;>
      push_cast <;> ring_nf <;> simp

theorem lxor_succ (n : ℕ) (b : Bool) : lxor (n + 1) b = !(lxor n b) := by
  rcases Nat.mod_two_eq_zero_or_one n with h | h <;>
    simp [lxor, Nat.add_mod, h] <;> cases b <;> simp

theorem lxor_not (n : ℕ) (b : Bool) : lxor n (!b) = !(lxor n b) := by
  cases b <;> simp [lxor]

theorem lxor_even (n : ℕ) (b : Bool) (h : n % 2 = 0) : lxor n b = b := by
  simp [lxor, h]

theorem toggleRun_mem_bounds (bt s : ℚ) (hbt : 0 < bt) :
    ∀ (L : List Bool) (c : ℕ) (line : Bool),
      ∀ e ∈ (toggleRun bt s c L line).1,
        s + (c : ℚ) * bt ≤ e ∧ e < s + ((c + L.length : ℕ) : ℚ) * bt := by
  intro L
  induction L with
  | nil => intro c line e he; simp [toggleRun] at he
  | cons l ls ih =>
    intro c line e he
    have hstep : (c : ℚ) * bt < ((c + (l :: ls).length : ℕ) : ℚ) * bt := by
      have : (c : ℚ) < ((c + (l :: ls).length : ℕ) : ℚ) := by
        push_cast [List.length_cons]
        have : (0 : ℚ) ≤ (ls.length : ℚ) := by positivity
        linarith
      exact mul_lt_mul_of_pos_right this hbt
    simp only [toggleRun] at he
    by_cases h : line = l
    · simp [h] at he
      rcases ih (c + 1) l e he with ⟨h1, h2⟩
      constructor
      · refine le_trans ?_ h1
        have : (c : ℚ) * bt ≤ ((c + 1 : ℕ) : ℚ) * bt := by
          have : (c : ℚ) ≤ ((c + 1 : ℕ) : ℚ) := by push_cast; linarith
          exact mul_le_mul_of_nonneg_right this (le_of_lt hbt)
        linarith
      · refine lt_of_lt_of_le h2 ?_
        have : ((c + 1 + ls.length : ℕ) : ℚ) * bt ≤ ((c + (l :: ls).length : ℕ) : ℚ) * bt := by
          have : ((c + 1 + ls.length : ℕ) : ℚ) ≤ ((c + (l :: ls).length : ℕ) : ℚ) := by
            push_cast [List.length_cons]; linarith
          exact mul_le_mul_of_nonneg_right this (le_of_lt hbt)
        linarith
    · simp [h] at he
      rcases he with he | he
      · subst he
        exact ⟨le_refl _, by linarith⟩
      · rcases ih (c + 1) l e he with ⟨h1, h2⟩
        constructor
        · refine le_trans ?_ h1
          have : (c : ℚ) * bt ≤ ((c + 1 : ℕ) : ℚ) * bt := by
            have : (c : ℚ) ≤ ((c + 1 : ℕ) : ℚ) := by push_cast; linarith
            exact mul_le_mul_of_nonneg_right this (le_of_lt hbt)
          linarith
        · refine lt_of_lt_of_le h2 ?_
          have : ((c + 1 + ls.length : ℕ) : ℚ) * bt ≤ ((c + (l :: ls).length : ℕ) : ℚ) * bt := by
            have : ((c + 1 + ls.length : ℕ) : ℚ) ≤ ((c + (l :: ls).length : ℕ) : ℚ) := by
              push_cast [List.length_cons]; linarith
            exact mul_le_mul_of_nonneg_right this (le_of_lt hbt)
          linarith

theorem toggleRun_chain (bt s : ℚ) (hbt : 0 < bt) :
    ∀ (L : List Bool) (c : ℕ) (line : Bool),
      List.Chain' (· < ·) (toggleRun bt s c L line).1 := by
  intro L
  induction L with
  | nil => intro c line; simp [toggleRun]
  | cons l ls ih =>
    intro c line
    simp only [toggleRun]
    by_cases h : line = l
    · simpa [h] using ih (c + 1) l
    · simp only [h, ne_eq, not_false_eq_true, if_true]
      refine List.chain'_cons'.mpr ⟨?_, ih (c + 1) l⟩
      intro y hy
      have hmem : y ∈ (toggleRun bt s (c + 1) ls l).1 := by
        exact List.mem_of_mem_head? hy
      have hb := (toggleRun_mem_bounds bt s hbt ls (c + 1) l y hmem).1
      have : (c : ℚ) * bt < ((c + 1 : ℕ) : ℚ) * bt := by
        have : (c : ℚ) < ((c + 1 : ℕ) : ℚ) := by push_cast; linarith
        exact mul_lt_mul_of_pos_right this hbt
      linarith

theorem toggleRun_parity (bt s : ℚ) :
    ∀ (L : List Bool) (c : ℕ) (line : Bool),
      lxor (toggleRun bt s c L line).1.length line = (toggleRun bt s c L line).2 := by
  intro L
  induction L with
  | nil => intro c line; simp [toggleRun, lxor]
  | cons l ls ih =>
    intro c line
    simp only [toggleRun]
    by_cases h : line = l
    · subst h
      simpa using ih (c + 1) line
    · simp only [h, ne_eq, not_false_eq_true, if_true, List.length_cons]
      rw [lxor_succ]
      have hline : line = !l := by
        cases line <;> cases l <;> simp_all
      rw [hline, lxor_not]
      simp [ih (c + 1) l]

theorem toggleRun_snd (bt s : ℚ) :
    ∀ (L : List Bool) (c : ℕ) (line : Bool),
      (toggleRun bt s c L line).2 = L.getLastD line := by
  intro L
  induction L with
  | nil => intro c line; simp [toggleRun]
  | cons l ls ih =>
    intro c line
    simp only [toggleRun]
    rw [List.getLastD_cons]
    exact ih (c + 1) l

theorem takeWhile_lt_length_mono (l : List ℚ) (x y : ℚ) (hxy : x ≤ y) :
    (l.takeWhile (fun e => decide (e < x))).length
      ≤ (l.takeWhile (fun e => decide (e < y))).length := by
  induction l with
  | nil => simp
  | cons e es ih =>
    by_cases h : e < x
    · have h2 : e < y := lt_of_lt_of_le h hxy
      simp [List.takeWhile_cons, h, h2]
      exact ih
    · simp [List.takeWhile_cons, h]

theorem toggleRun_cell (bt s : ℚ) (hbt : 0 < bt) :
    ∀ (L : List Bool) (c k : ℕ) (line : Bool) (θ : ℚ),
      k < L.length →
      s + ((c + k : ℕ) : ℚ) * bt < θ →
      θ ≤ s + ((c + k + 1 : ℕ) : ℚ) * bt →
      lxor ((toggleRun bt s c L line).1.takeWhile
        (fun e => decide (e < θ))).length line = L.getD k false := by
  intro L
  induction L with
  | nil => intro c k line θ hk; simp at hk
  | cons l ls ih =>
    intro c k line θ hk h1 h2
    cases k with
    | zero =>
      have h2' : θ ≤ s + ((c + 1 : ℕ) : ℚ) * bt := by
        have he : ((c + 0 + 1 : ℕ) : ℚ) = ((c + 1 : ℕ) : ℚ) := by norm_num
        rw [he] at h2
        exact h2
      have hrest : ∀ y ∈ (toggleRun bt s (c + 1) ls l).1, ¬ y < θ := by
        intro y hy
        have hb := (toggleRun_mem_bounds bt s hbt ls (c + 1) l y hy).1
        linarith
      have htw : ((toggleRun bt s (c + 1) ls l).1).takeWhile
          (fun e => decide (e < θ)) = [] := by
        cases hrr : (toggleRun bt s (c + 1) ls l).1 with
        | nil => simp
        | cons y ys =>
          have hny : ¬ y < θ := hrest y (by rw [hrr]; simp)
          simp [List.takeWhile_cons, hny]
      have hedge : (s + (c : ℚ) * bt) < θ := by
        have he : ((c + 0 : ℕ) : ℚ) = (c : ℚ) := by norm_num
        rw [he] at h1
        exact h1
      simp only [toggleRun]
      by_cases h : line = l
      · simp [h, htw, lxor_zero]
      · simp [h, List.takeWhile_cons, hedge, htw, lxor_succ, lxor_zero]
        cases line <;> cases l <;> simp_all
    | succ k' =>
      have hk' : k' < ls.length := by simpa using hk
      have hb1 : s + ((c + 1 + k' : ℕ) : ℚ) * bt < θ := by
        have he : ((c + (k' + 1) : ℕ) : ℚ) = ((c + 1 + k' : ℕ) : ℚ) := by
          push_cast; ring
        rw [he] at h1
        exact h1
      have hb2 : θ ≤ s + ((c + 1 + k' + 1 : ℕ) : ℚ) * bt := by
        have he : ((c + (k' + 1) + 1 : ℕ) : ℚ) = ((c + 1 + k' + 1 : ℕ) : ℚ) := by
          push_cast; ring
        rw [he] at h2
        exact h2
      have IH := ih (c + 1) k' l θ hk' hb1 hb2
      have hedge : (s + (c : ℚ) * bt) < θ := by
        have hcc : (c : ℚ) * bt ≤ ((c + (k' + 1) : ℕ) : ℚ) * bt := by
          have : (c : ℚ) ≤ ((c + (k' + 1) : ℕ) : ℚ) := by push_cast; linarith
          exact mul_le_mul_of_nonneg_right this (le_of_lt hbt)
        linarith
      simp only [toggleRun]
      by_cases h : line = l
      · subst h
        simpa using IH
      · have hline : line = !l := by cases line <;> cases l <;> simp_all
        simp only [h, ne_eq, not_false_eq_true, if_true, List.takeWhile_cons,
          List.getD_cons_succ]
        rw [if_pos (by simpa using hedge)]
        rw [List.length_cons, lxor_succ, hline, lxor_not]
        simp [IH]

theorem takeWhile_append_not_all {p : ℚ → Bool} :
    ∀ {l₁ : List ℚ} (l₂ : List ℚ), l₁.takeWhile p ≠ l₁ →
      (l₁ ++ l₂).takeWhile p = l₁.takeWhile p
  | [], _, h => absurd rfl h
  | x :: xs, l₂, h => by
    by_cases hx : p x = true
    · rw [List.takeWhile_cons_of_pos hx] at h ⊢
      rw [List.cons_append, List.takeWhile_cons_of_pos hx]
      have : xs.takeWhile p ≠ xs := by
        intro hc
        exact h (by rw [hc])
      rw [takeWhile_append_not_all l₂ this]
    · rw [List.takeWhile_cons_of_neg (by simpa using hx)] at h ⊢
      rw [List.cons_append, List.takeWhile_cons_of_neg (by simpa using hx)]

theorem lxor_add_even (n m : ℕ) (b : Bool) (h : n % 2 = 0) :
    lxor (n + m) b = lxor m b := by
  simp [lxor, Nat.add_mod, h]

theorem cellLevels_length (cb : ℕ) (par : Parity) (ch : ℕ) :
    (cellLevels cb par ch).length = cb + parN par + 2 := by
  cases par <;> simp [cellLevels, parN, bitsOf_length] <;> ring

theorem getLast?_cons_concat (x b : Bool) :
    ∀ (A : List Bool), (x :: (A ++ [b])).getLast? = some b
  | [] => rfl
  | y :: ys => by
    rw [List.cons_append, List.getLast?_cons_cons]
    exact getLast?_cons_concat y b ys

theorem cellLevels_last (cb : ℕ) (par : Parity) (ch : ℕ) :
    (cellLevels cb par ch).getLastD false = false := by
  cases par <;>
    simp only [cellLevels, List.getLastD_eq_getLast?, getLast?_cons_concat,
      Option.getD_some]

theorem block_even (bt t : ℚ) (cb : ℕ) (par : Parity) (ch : ℕ) :
    (toggleRun bt t 0 (cellLevels cb par ch) false).1.length % 2 = 0 := by
  have h1 := toggleRun_parity bt t (cellLevels cb par ch) 0 false
  rw [toggleRun_snd, cellLevels_last] at h1
  by_contra hodd
  have h2 : (toggleRun bt t 0 (cellLevels cb par ch) false).1.length % 2 = 1 := by
    omega
  simp [lxor, h2] at h1

theorem block_head (bt t : ℚ) (cb : ℕ) (par : Parity) (ch : ℕ) :
    ∃ bs, (toggleRun bt t 0 (cellLevels cb par ch) false).1 = t :: bs := by
  refine ⟨(toggleRun bt t 1 ((bitsOf ch cb).map not ++
    (match par with
     | .off => []
     | p =>
       let mask := parityMaskLoop (cb - 5) 31
       let ones0 := parity_ (ch &&& mask)
       let ones := if p = Parity.odd then ones0 ^^^ 1 else ones0
       [!(decide (ones = 1))]) ++ [false]) true).1, ?_⟩
  simp [cellLevels, toggleRun]

theorem takeWhile_nil_of_all_not {p : ℚ → Bool} {l : List ℚ}
    (h : ∀ x ∈ l, ¬ p x = true) : l.takeWhile p = [] := by
  cases l with
  | nil => rfl
  | cons y ys =>
    exact List.takeWhile_cons_of_neg (h y (by simp))

/-- Sampling the serial line at the midpoint of cell k of the frame that
starts at time t: the level is the cell level of the frame, and the
returned edge position is the count of edges at or before the sample. -/
theorem sample_cell
    (sline : Signal) (bt : ℚ) (hbt : 0 < bt)
    (cb : ℕ) (par : Parity) (sb : ℕ)
    (ch : ℕ) (t : ℚ) (done suffix : List ℚ) (endT : ℚ)
    (hedges : sline.edges
      = done ++ ((toggleRun bt t 0 (cellLevels cb par ch) false).1 ++ suffix))
    (hsl : sline.slevel = false)
    (hend : sline.end_ = some endT)
    (hdone : ∀ e ∈ done, e < t)
    (hdoneEven : done.length % 2 = 0)
    (hsuffix : ∀ e ∈ suffix,
      t + ((cb + parN par + 1 + sb : ℕ) : ℚ) * bt ≤ e)
    (hendT : t + ((cb + parN par + 1 + sb : ℕ) : ℚ) * bt ≤ endT)
    (k tpos : ℕ) (hk : k < cb + parN par + 1 + sb)
    (htpos : tpos ≤ done.length +
      (((toggleRun bt t 0 (cellLevels cb par ch) false).1).takeWhile
        (fun e => decide (e < t + (k : ℚ) * bt + bt / 2))).length) :
    level sline (t + (k : ℚ) * bt + bt / 2) tpos
      = some ((cellLevels cb par ch).getD k false,
          done.length +
            (((toggleRun bt t 0 (cellLevels cb par ch) false).1).takeWhile
              (fun e => decide (e < t + (k : ℚ) * bt + bt / 2))).length) := by
  have hkQ : (0 : ℚ) ≤ (k : ℚ) := Nat.cast_nonneg k
  have f1 : t < t + (k : ℚ) * bt + bt / 2 := by nlinarith
  have f2 : t + (k : ℚ) * bt + bt / 2 < t + ((k + 1 : ℕ) : ℚ) * bt := by
    push_cast
    nlinarith
  have f3 : t + (k : ℚ) * bt + bt / 2
      < t + ((cb + parN par + 1 + sb : ℕ) : ℚ) * bt := by
    have hle : ((k + 1 : ℕ) : ℚ) ≤ ((cb + parN par + 1 + sb : ℕ) : ℚ) :=
      Nat.cast_le.mpr hk
    have : ((k + 1 : ℕ) : ℚ) * bt ≤ ((cb + parN par + 1 + sb : ℕ) : ℚ) * bt :=
      mul_le_mul_of_nonneg_right hle (le_of_lt hbt)
    linarith
  have f4 := toggleRun_mem_bounds bt t hbt (cellLevels cb par ch) 0 false
  have f4' : ∀ e ∈ (toggleRun bt t 0 (cellLevels cb par ch) false).1,
      t ≤ e ∧ e < t + (((cellLevels cb par ch).length : ℕ) : ℚ) * bt := by
    intro e he
    have := f4 e he
    simpa using this
  have f5 : ∀ e ∈ suffix, ¬ e < t + (k : ℚ) * bt + bt / 2 := by
    intro e he
    have := hsuffix e he
    linarith
  have htwv : ((toggleRun bt t 0 (cellLevels cb par ch) false).1
        ++ suffix).takeWhile (fun e => decide (e < t + (k : ℚ) * bt + bt / 2))
      = ((toggleRun bt t 0 (cellLevels cb par ch) false).1).takeWhile
          (fun e => decide (e < t + (k : ℚ) * bt + bt / 2)) := by
    by_cases hfull : ((toggleRun bt t 0 (cellLevels cb par ch) false).1).takeWhile
        (fun e => decide (e < t + (k : ℚ) * bt + bt / 2))
        = (toggleRun bt t 0 (cellLevels cb par ch) false).1
    · rw [takeWhile_append_all suffix (List.takeWhile_eq_self_iff.mp hfull)]
      rw [takeWhile_nil_of_all_not (by
        intro x hx
        simpa using f5 x hx)]
      rw [List.append_nil, hfull]
    · exact takeWhile_append_not_all suffix hfull
  have hsplit := level_split sline done
    ((toggleRun bt t 0 (cellLevels cb par ch) false).1 ++ suffix)
    (t + (k : ℚ) * bt + bt / 2) tpos hedges
    (fun x hx => lt_trans (hdone x hx) f1)
    (by rw [htwv]; exact htpos)
  rw [htwv] at hsplit
  have hval : lxor (((toggleRun bt t 0 (cellLevels cb par ch) false).1).takeWhile
      (fun e => decide (e < t + (k : ℚ) * bt + bt / 2))).length false
      = (cellLevels cb par ch).getD k false := by
    by_cases hkLV : k < (cellLevels cb par ch).length
    · have hcell := toggleRun_cell bt t hbt (cellLevels cb par ch) 0 k false
        (t + (k : ℚ) * bt + bt / 2) hkLV
        (by simpa using (by nlinarith : t + (k : ℚ) * bt
          < t + (k : ℚ) * bt + bt / 2))
      exact hcell (by simpa using le_of_lt f2)
    · push_neg at hkLV
      have hall : ((toggleRun bt t 0 (cellLevels cb par ch) false).1).takeWhile
          (fun e => decide (e < t + (k : ℚ) * bt + bt / 2))
          = (toggleRun bt t 0 (cellLevels cb par ch) false).1 := by
        apply List.takeWhile_eq_self_iff.mpr
        intro x hx
        have hb := (f4' x hx).2
        have hcast : (((cellLevels cb par ch).length : ℕ) : ℚ) ≤ (k : ℚ) :=
          Nat.cast_le.mpr hkLV
        have : (((cellLevels cb par ch).length : ℕ) : ℚ) * bt ≤ (k : ℚ) * bt :=
          mul_le_mul_of_nonneg_right hcast (le_of_lt hbt)
        simp only [decide_eq_true_eq]
        nlinarith
      rw [hall]
      have hpar := toggleRun_parity bt t (cellLevels cb par ch) 0 false
      rw [toggleRun_snd, cellLevels_last] at hpar
      rw [hpar]
      rw [List.getD_eq_default _ _ hkLV]
  rw [hsplit]
  by_cases hex : (((toggleRun bt t 0 (cellLevels cb par ch) false).1).takeWhile
      (fun e => decide (e < t + (k : ℚ) * bt + bt / 2))).length
      = ((toggleRun bt t 0 (cellLevels cb par ch) false).1 ++ suffix).length
  · rw [if_pos hex]
    have hlt : pyLt sline.end_ (some (t + (k : ℚ) * bt + bt / 2)) = false := by
      rw [hend]
      simp only [pyLt, decide_eq_false_iff_not, not_lt]
      linarith
    rw [hlt]
    simp only [Bool.false_eq_true, if_false]
    have hsuf0 : suffix = [] := by
      have h1 : (((toggleRun bt t 0 (cellLevels cb par ch) false).1).takeWhile
          (fun e => decide (e < t + (k : ℚ) * bt + bt / 2))).length
          ≤ ((toggleRun bt t 0 (cellLevels cb par ch) false).1).length :=
        (List.takeWhile_prefix _).length_le
      rw [List.length_append] at hex
      have : suffix.length = 0 := by omega
      exact List.length_eq_zero.mp this
    have hlen : sline.edges.length = done.length +
        (((toggleRun bt t 0 (cellLevels cb par ch) false).1).takeWhile
          (fun e => decide (e < t + (k : ℚ) * bt + bt / 2))).length := by
      rw [hedges, hsuf0]
      simp only [List.append_nil, List.length_append]
      rw [List.length_append] at hex
      rw [hsuf0] at hex
      simp at hex
      omega
    rw [hlen, hsl]
    rw [lxor_add_even _ _ _ hdoneEven, hval]
  · rw [if_neg hex]
    rw [hsl, lxor_add_even _ _ _ hdoneEven, hval]

theorem or_two_pow_of_lt {b i : ℕ} (h : b < 2 ^ i) : b ||| 2 ^ i = b + 2 ^ i := by
  have h2 := Nat.mul_add_lt_is_or h 1
  rw [Nat.mul_one] at h2
  rw [Nat.or_comm, ← h2, Nat.add_comm]

theorem getD_append_left (l₁ l₂ : List Bool) (n : ℕ) (d : Bool)
    (h : n < l₁.length) : (l₁ ++ l₂).getD n d = l₁.getD n d := by
  simp [List.getD_eq_getElem?_getD, List.getElem?_append_left h]

theorem getD_append_right (l₁ l₂ : List Bool) (n : ℕ) (d : Bool) :
    (l₁ ++ l₂).getD (l₁.length + n) d = l₂.getD n d := by
  simp [List.getD_eq_getElem?_getD,
    List.getElem?_append_right (Nat.le_add_right _ _)]

theorem bitsOf_getD (j : ℕ) : ∀ (v n : ℕ), j < n →
    (bitsOf v n).getD j false = decide (v / 2 ^ j % 2 = 1) := by
  induction j with
  | zero =>
    intro v n hj
    cases n with
    | zero => omega
    | succ n => simp [bitsOf]
  | succ j ih =>
    intro v n hj
    cases n with
    | zero => omega
    | succ n =>
      simp only [bitsOf, List.getD_cons_succ]
      rw [ih (v / 2) n (by omega)]
      rw [Nat.div_div_eq_div_mul]
      rw [show (2 : ℕ) * 2 ^ j = 2 ^ (j + 1) from by rw [Nat.pow_succ]; ring]

theorem assemble_eq (cb : ℕ) :
    ∀ (n v c : ℕ), v < 2 ^ n → n ≤ cb → c < 2 ^ cb →
      assemble (2 ^ (cb - 1)) c (bitsOf v n) = c / 2 ^ n + v * 2 ^ (cb - n) := by
  intro n
  induction n with
  | zero =>
    intro v c hv _ _
    have hv0 : v = 0 := Nat.lt_one_iff.mp hv
    simp [bitsOf, assemble, hv0]
  | succ n ih =>
    intro v c hv hn hc
    have hc2 : c / 2 < 2 ^ (cb - 1) := by
      have hcb1 : 1 ≤ cb := le_trans (Nat.succ_le_succ (Nat.zero_le n)) hn
      have hpow : 2 ^ cb = 2 ^ (cb - 1) * 2 := by
        rw [← Nat.pow_succ]
        congr 1
        omega
      rw [Nat.div_lt_iff_lt_mul (by norm_num)]
      rw [← hpow]
      exact hc
    have hstep : (if decide (v % 2 = 1) = true then c / 2 ||| 2 ^ (cb - 1)
        else c / 2) = c / 2 + v % 2 * 2 ^ (cb - 1) := by
      rcases Nat.mod_two_eq_zero_or_one v with h | h
      · simp [h]
      · simp [h, or_two_pow_of_lt hc2]
    have hstep' : c / 2 + v % 2 * 2 ^ (cb - 1) < 2 ^ cb := by
      have hr : v % 2 ≤ 1 := by omega
      have h1 : v % 2 * 2 ^ (cb - 1) ≤ 2 ^ (cb - 1) := by
        calc v % 2 * 2 ^ (cb - 1) ≤ 1 * 2 ^ (cb - 1) :=
              Nat.mul_le_mul_right _ hr
          _ = 2 ^ (cb - 1) := by ring
      have hcb1 : 1 ≤ cb := le_trans (Nat.succ_le_succ (Nat.zero_le n)) hn
      have hpow : 2 ^ cb = 2 ^ (cb - 1) * 2 := by
        rw [← Nat.pow_succ]
        congr 1
        omega
      omega
    simp only [bitsOf, assemble, hstep]
    rw [ih (v / 2) _ (by
        have := Nat.div_lt_div_of_lt_of_dvd (Dvd.intro _ rfl) hv
        rw [Nat.pow_succ] at hv
        exact Nat.div_lt_of_lt_mul (by rw [Nat.mul_comm] at hv; exact hv))
      (by omega) hstep']
    have hxp1 : 2 ^ (cb - 1) = 2 ^ (cb - 1 - n) * 2 ^ n := by
      rw [← Nat.pow_add]
      congr 1
      omega
    have hxp2 : cb - 1 - n = cb - (n + 1) := by omega
    rw [hxp1, hxp2]
    rw [← Nat.mul_assoc]
    rw [Nat.add_mul_div_right _ _ (Nat.pos_pow_of_pos n (by norm_num))]
    rw [Nat.div_div_eq_div_mul]
    rw [show (2 : ℕ) * 2 ^ n = 2 ^ (n + 1) from by rw [Nat.pow_succ]; ring]
    have hsplitv : v * 2 ^ (cb - (n + 1))
        = v / 2 * 2 ^ (cb - n) + v % 2 * 2 ^ (cb - (n + 1)) := by
      have hv2 : v = 2 * (v / 2) + v % 2 := by omega
      have hp : 2 ^ (cb - n) = 2 * 2 ^ (cb - (n + 1)) := by
        rw [← Nat.pow_succ']
        congr 1
        omega
      calc v * 2 ^ (cb - (n + 1))
          = (2 * (v / 2) + v % 2) * 2 ^ (cb - (n + 1)) := by rw [← hv2]
        _ = v / 2 * (2 * 2 ^ (cb - (n + 1))) + v % 2 * 2 ^ (cb - (n + 1)) := by
            ring
        _ = v / 2 * 2 ^ (cb - n) + v % 2 * 2 ^ (cb - (n + 1)) := by rw [← hp]
    rw [hsplitv]
    ring

theorem cellLevels_eq (cb : ℕ) (par : Parity) (ch : ℕ) :
    cellLevels cb par ch
      = true :: ((bitsOf ch cb).map not ++
          (if par = Parity.off then []
           else [!(decide (txOnes cb par ch = 1))]) ++ [false]) := by
  cases par <;> simp [cellLevels, txOnes]

theorem map_not_getD : ∀ (l : List Bool) (j : ℕ), j < l.length →
    (l.map not).getD j false = !(l.getD j false)
  | [], j, h => by simp at h
  | b :: bs, 0, _ => by simp
  | b :: bs, j + 1, h => by
    simp only [List.map_cons, List.getD_cons_succ]
    exact map_not_getD bs j (by simpa using h)

theorem cellLevels_getD_zero (cb : ℕ) (par : Parity) (ch : ℕ) :
    (cellLevels cb par ch).getD 0 false = true := by
  rw [cellLevels_eq]
  rfl

theorem cellLevels_getD_data (cb : ℕ) (par : Parity) (ch : ℕ) (j : ℕ)
    (hj : j < cb) :
    (cellLevels cb par ch).getD (j + 1) false
      = !((bitsOf ch cb).getD j false) := by
  rw [cellLevels_eq, List.getD_cons_succ]
  have hD : ((bitsOf ch cb).map not).length = cb := by simp [bitsOf_length]
  rw [getD_append_left _ _ _ _ (by rw [List.length_append, hD]; cases par <;> simp <;> omega)]
  rw [getD_append_left _ _ _ _ (by rw [hD]; omega)]
  exact map_not_getD _ j (by rw [bitsOf_length]; omega)

theorem cellLevels_getD_parity (cb : ℕ) (par : Parity) (ch : ℕ)
    (hpar : par ≠ Parity.off) :
    (cellLevels cb par ch).getD (cb + 1) false
      = !(decide (txOnes cb par ch = 1)) := by
  rw [cellLevels_eq, List.getD_cons_succ]
  have hD : ((bitsOf ch cb).map not).length = cb := by simp [bitsOf_length]
  have hP : (if par = Parity.off then ([] : List Bool)
      else [!(decide (txOnes cb par ch = 1))])
      = [!(decide (txOnes cb par ch = 1))] := by rw [if_neg hpar]
  rw [getD_append_left _ _ _ _ (by rw [List.length_append, hD, hP]; simp)]
  rw [hP]
  have h := getD_append_right ((bitsOf ch cb).map not)
    [!(decide (txOnes cb par ch = 1))] 0 false
  rw [hD] at h
  simpa using h

theorem cellLevels_getD_stop (cb : ℕ) (par : Parity) (ch : ℕ) (k : ℕ)
    (hk : cb + parN par + 1 ≤ k) :
    (cellLevels cb par ch).getD k false = false := by
  by_cases hlen : k < (cellLevels cb par ch).length
  · rw [cellLevels_length] at hlen
    have hkeq : k = cb + parN par + 1 := by omega
    subst hkeq
    rw [cellLevels_eq, List.getD_cons_succ]
    have hDP : ((bitsOf ch cb).map not ++
        (if par = Parity.off then ([] : List Bool)
         else [!(decide (txOnes cb par ch = 1))])).length = cb + parN par := by
      cases par <;> simp [parN, bitsOf_length]
    have h := getD_append_right ((bitsOf ch cb).map not ++
      (if par = Parity.off then ([] : List Bool)
       else [!(decide (txOnes cb par ch = 1))])) [false] 0 false
    rw [hDP] at h
    simpa using h
  · push_neg at hlen
    exact List.getD_eq_default _ _ hlen

theorem toggleRun_mem_form (bt s : ℚ) :
    ∀ (L : List Bool) (c : ℕ) (line : Bool),
      ∀ e ∈ (toggleRun bt s c L line).1,
        ∃ m, c ≤ m ∧ m < c + L.length ∧ e = s + (m : ℚ) * bt := by
  intro L
  induction L with
  | nil => intro c line e he; simp [toggleRun] at he
  | cons l ls ih =>
    intro c line e he
    simp only [toggleRun] at he
    by_cases h : line = l
    · simp [h] at he
      obtain ⟨m, h1, h2, h3⟩ := ih (c + 1) l e he
      exact ⟨m, by omega, by simp only [List.length_cons]; omega, h3⟩
    · simp [h] at he
      rcases he with he | he
      · exact ⟨c, le_refl c, by simp, he⟩
      · obtain ⟨m, h1, h2, h3⟩ := ih (c + 1) l e he
        exact ⟨m, by omega, by simp only [List.length_cons]; omega, h3⟩

theorem block_edge_lt (bt t : ℚ) (hbt : 0 < bt) (cb : ℕ) (par : Parity)
    (ch : ℕ) (θ : ℚ)
    (hθ : t + ((cb + parN par + 1 : ℕ) : ℚ) * bt < θ) :
    ∀ e ∈ (toggleRun bt t 0 (cellLevels cb par ch) false).1, e < θ := by
  intro e he
  obtain ⟨m, hm1, hm2, hm3⟩ :=
    toggleRun_mem_form bt t (cellLevels cb par ch) 0 false e he
  rw [cellLevels_length] at hm2
  have hmle : m ≤ cb + parN par + 1 := by omega
  have hcast : (m : ℚ) ≤ ((cb + parN par + 1 : ℕ) : ℚ) := Nat.cast_le.mpr hmle
  have : (m : ℚ) * bt ≤ ((cb + parN par + 1 : ℕ) : ℚ) * bt :=
    mul_le_mul_of_nonneg_right hcast (le_of_lt hbt)
  rw [hm3]
  linarith

theorem block_cnt_full (bt t : ℚ) (hbt : 0 < bt) (cb : ℕ) (par : Parity)
    (ch : ℕ) (θ : ℚ)
    (hθ : t + ((cb + parN par + 1 : ℕ) : ℚ) * bt < θ) :
    ((toggleRun bt t 0 (cellLevels cb par ch) false).1.takeWhile
      (fun e => decide (e < θ))).length
      = (toggleRun bt t 0 (cellLevels cb par ch) false).1.length := by
  have hall : ∀ e ∈ (toggleRun bt t 0 (cellLevels cb par ch) false).1,
      decide (e < θ) = true := by
    intro e he
    simpa using block_edge_lt bt t hbt cb par ch θ hθ e he
  rw [List.takeWhile_eq_self_iff.mpr hall]

/-- Running the char sampling loop of serial_rx across the data cells of a
frame: starting after the sample of cell j with the scan position equal to
the edge count before that sample, the remaining cb - j samples read the
inverted data cell levels and fold them into the character register exactly
as the assemble transform of the data bits. -/
theorem rxBits_run
    (sline : Signal) (bt : ℚ) (hbt : 0 < bt)
    (cb : ℕ) (par : Parity) (sb : ℕ) (ch : ℕ) (t : ℚ)
    (done suffix : List ℚ) (E : ℚ) (mask : ℕ)
    (hedges : sline.edges
      = done ++ ((toggleRun bt t 0 (cellLevels cb par ch) false).1 ++ suffix))
    (hsl : sline.slevel = false)
    (hend : sline.end_ = some E)
    (hdone : ∀ e ∈ done, e < t)
    (hdoneEven : done.length % 2 = 0)
    (hsuffix : ∀ e ∈ suffix, t + ((cb + parN par + 1 + sb : ℕ) : ℚ) * bt ≤ e)
    (hendT : t + ((cb + parN par + 1 + sb : ℕ) : ℚ) * bt ≤ E) :
    ∀ (n j c tpos : ℕ), j + n = cb →
      tpos = done.length +
        ((toggleRun bt t 0 (cellLevels cb par ch) false).1.takeWhile
          (fun e => decide (e < t + (j : ℚ) * bt + bt / 2))).length →
      rxBits sline bt (some mask) n c (t + (j : ℚ) * bt + bt / 2) tpos
        = .ok (.more (assemble mask c ((bitsOf ch cb).drop j))
            (t + (cb : ℚ) * bt + bt / 2)
            (done.length +
              ((toggleRun bt t 0 (cellLevels cb par ch) false).1.takeWhile
                (fun e => decide (e < t + (cb : ℚ) * bt + bt / 2))).length)) := by
  intro n
  induction n with
  | zero =>
    intro j c tpos hj htpos
    have hjcb : j = cb := by omega
    rw [hjcb] at htpos ⊢
    have hdrop : (bitsOf ch cb).drop cb = [] := by
      have h := List.drop_length (bitsOf ch cb)
      rwa [bitsOf_length ch cb] at h
    rw [htpos]
    simp only [rxBits, hdrop, assemble]
  | succ n ih =>
    intro j c tpos hj htpos
    have hjcb : j < cb := by omega
    simp only [rxBits]
    have hstep : t + (j : ℚ) * bt + bt / 2 + bt
        = t + ((j + 1 : ℕ) : ℚ) * bt + bt / 2 := by push_cast; ring
    rw [hstep]
    have hcell := sample_cell sline bt hbt cb par sb ch t done suffix E
      hedges hsl hend hdone hdoneEven hsuffix hendT (j + 1) tpos
      (by omega)
      (by rw [htpos]
          refine Nat.add_le_add_left ?_ _
          apply takeWhile_lt_length_mono
          push_cast
          nlinarith)
    rw [hcell]
    have hdropj : (bitsOf ch cb).drop j
        = (bitsOf ch cb).getD j false :: (bitsOf ch cb).drop (j + 1) := by
      rw [List.drop_eq_getElem_cons (by rw [bitsOf_length]; omega)]
      congr 1
      rw [List.getD_eq_getElem?_getD,
        List.getElem?_eq_getElem (by rw [bitsOf_length]; omega)]
      rfl
    rw [cellLevels_getD_data cb par ch j hjcb]
    rcases hbj : (bitsOf ch cb).getD j false with _ | _
    · rw [hdropj, hbj]
      simp only [assemble, Bool.not_false, if_true]
      exact ih (j + 1) (c / 2) _ (by omega) rfl
    · rw [hdropj, hbj]
      simp only [assemble, Bool.not_true, if_false]
      exact ih (j + 1) (c / 2 ||| mask) _ (by omega) rfl

/-- Running the stop-bit sampling loop of serial_rx across the stop cells of
a frame: every sample reads the low idle level, so the status is unchanged
and the loop ends at the last stop cell midpoint with the edge scan at the
edge count before that sample. -/
theorem rxStops_run
    (sline : Signal) (bt : ℚ) (hbt : 0 < bt)
    (cb : ℕ) (par : Parity) (sb : ℕ) (ch : ℕ) (t : ℚ)
    (done suffix : List ℚ) (E : ℚ)
    (hedges : sline.edges
      = done ++ ((toggleRun bt t 0 (cellLevels cb par ch) false).1 ++ suffix))
    (hsl : sline.slevel = false)
    (hend : sline.end_ = some E)
    (hdone : ∀ e ∈ done, e < t)
    (hdoneEven : done.length % 2 = 0)
    (hsuffix : ∀ e ∈ suffix, t + ((cb + parN par + 1 + sb : ℕ) : ℚ) * bt ≤ e)
    (hendT : t + ((cb + parN par + 1 + sb : ℕ) : ℚ) * bt ≤ E) :
    ∀ (n i tpos st : ℕ), i + n = sb →
      tpos = done.length +
        ((toggleRun bt t 0 (cellLevels cb par ch) false).1.takeWhile
          (fun e => decide (e < t + ((cb + parN par + i : ℕ) : ℚ) * bt + bt / 2))).length →
      rxStops sline bt n (t + ((cb + parN par + i : ℕ) : ℚ) * bt + bt / 2) tpos st
        = (false, st, t + ((cb + parN par + sb : ℕ) : ℚ) * bt + bt / 2,
           done.length +
             ((toggleRun bt t 0 (cellLevels cb par ch) false).1.takeWhile
               (fun e => decide (e < t + ((cb + parN par + sb : ℕ) : ℚ) * bt + bt / 2))).length) := by
  intro n
  induction n with
  | zero =>
    intro i tpos st hi htpos
    have hisb : i = sb := by omega
    rw [hisb] at htpos ⊢
    rw [htpos]
    simp only [rxStops]
  | succ n ih =>
    intro i tpos st hi htpos
    have hisb : i < sb := by omega
    simp only [rxStops]
    have hstep : t + ((cb + parN par + i : ℕ) : ℚ) * bt + bt / 2 + bt
        = t + ((cb + parN par + (i + 1) : ℕ) : ℚ) * bt + bt / 2 := by
      push_cast; ring
    rw [hstep]
    have hcell := sample_cell sline bt hbt cb par sb ch t done suffix E
      hedges hsl hend hdone hdoneEven hsuffix hendT (cb + parN par + (i + 1)) tpos
      (by omega)
      (by rw [htpos]
          refine Nat.add_le_add_left ?_ _
          apply takeWhile_lt_length_mono
          push_cast
          nlinarith)
    rw [hcell]
    rw [cellLevels_getD_stop cb par ch (cb + parN par + (i + 1)) (by omega)]
    exact ih (i + 1) _ st (by omega) rfl

theorem assemble_char (cb c ch : ℕ) (hc : c < 2 ^ cb) (hch : ch < 2 ^ cb) :
    assemble (2 ^ (cb - 1)) c (bitsOf ch cb) = ch := by
  rw [assemble_eq cb cb ch c hch (le_refl cb) hc]
  rw [Nat.div_eq_of_lt hc, Nat.sub_self, pow_zero, Nat.mul_one, Nat.zero_add]

/-- One aligned character of serial_rx: entering the main loop exactly at the
start of a frame with the scan at the count of earlier edges, the iteration
samples the start bit, the data bits, the optional parity bit and the stop
bits of the frame, records the character, its start time and a clean status,
and re-enters the loop at the end time of the frame. -/
theorem rx_char
    (sline : Signal) (bt : ℚ) (hbt : 0 < bt)
    (cb : ℕ) (par : Parity) (sb : ℕ) (hsb : 1 ≤ sb)
    (ch : ℕ) (hch : ch < 2 ^ cb)
    (hpm : ch &&& parityMaskLoop (cb - 5) 31 = ch)
    (t : ℚ) (done suffix : List ℚ) (E : ℚ)
    (hedges : sline.edges
      = done ++ ((toggleRun bt t 0 (cellLevels cb par ch) false).1 ++ suffix))
    (hsl : sline.slevel = false)
    (hend : sline.end_ = some E)
    (hdone : ∀ e ∈ done, e < t)
    (hdoneEven : done.length % 2 = 0)
    (hsuffix : ∀ e ∈ suffix, t + ((cb + parN par + 1 + sb : ℕ) : ℚ) * bt ≤ e)
    (hendT : t + ((cb + parN par + 1 + sb : ℕ) : ℚ) * bt ≤ E)
    (c : ℕ) (hc : c < 2 ^ cb)
    (fuel : ℕ) (acc : List ℕ × List ℚ × List ℕ) :
    rxLoop sline bt cb par sb (some (2 ^ (cb - 1))) (fuel + 1) t done.length c acc
      = rxLoop sline bt cb par sb (some (2 ^ (cb - 1))) fuel
          (t + ((cb + parN par + 1 + sb : ℕ) : ℚ) * bt)
          (done.length + (toggleRun bt t 0 (cellLevels cb par ch) false).1.length)
          ch (acc.1 ++ [ch], acc.2.1 ++ [t], acc.2.2 ++ [(0 : ℕ)]) := by
  have hcell0 := sample_cell sline bt hbt cb par sb ch t done suffix E
    hedges hsl hend hdone hdoneEven hsuffix hendT 0 done.length
    (by omega) (Nat.le_add_right _ _)
  rw [cellLevels_getD_zero] at hcell0
  have hbits := rxBits_run sline bt hbt cb par sb ch t done suffix E (2 ^ (cb - 1))
    hedges hsl hend hdone hdoneEven hsuffix hendT cb 0 c _ (by omega) rfl
  rw [List.drop_zero, assemble_char cb c ch hc hch] at hbits
  have hfull : ((toggleRun bt t 0 (cellLevels cb par ch) false).1.takeWhile
      (fun e => decide (e < t + ((cb + parN par + sb : ℕ) : ℚ) * bt + bt / 2))).length
      = (toggleRun bt t 0 (cellLevels cb par ch) false).1.length :=
    block_cnt_full bt t hbt cb par ch _ (by
      have h1 : ((cb + parN par + 1 : ℕ) : ℚ) ≤ ((cb + parN par + sb : ℕ) : ℚ) := by
        push_cast
        have : (1 : ℚ) ≤ (sb : ℚ) := by exact_mod_cast hsb
        linarith
      nlinarith)
  have hFE : t + ((cb + parN par + sb : ℕ) : ℚ) * bt + bt / 2 + bt / 2
      = t + ((cb + parN par + 1 + sb : ℕ) : ℚ) * bt := by push_cast; ring
  cases par with
  | off =>
    simp only [rxLoop]
    rw [show t + bt / 2 = t + ((0 : ℕ) : ℚ) * bt + bt / 2 from by push_cast; ring]
    simp only [hcell0, Bool.not_true, Bool.false_eq_true, if_false]
    simp only [hbits]
    have hstops := rxStops_run sline bt hbt cb Parity.off sb ch t done suffix E
      hedges hsl hend hdone hdoneEven hsuffix hendT sb 0 _ 0 (by omega) rfl
    simp only [parN, Nat.add_zero] at hstops hfull hFE ⊢
    simp only [hstops, Bool.false_eq_true, if_false]
    rw [hfull, hFE]
  | odd =>
    simp only [rxLoop]
    rw [show t + bt / 2 = t + ((0 : ℕ) : ℚ) * bt + bt / 2 from by push_cast; ring]
    simp only [hcell0, Bool.not_true, Bool.false_eq_true, if_false]
    simp only [hbits]
    rw [show t + (cb : ℚ) * bt + bt / 2 + bt
        = t + ((cb + 1 : ℕ) : ℚ) * bt + bt / 2 from by push_cast; ring]
    have hcellP := sample_cell sline bt hbt cb Parity.odd sb ch t done suffix E
      hedges hsl hend hdone hdoneEven hsuffix hendT (cb + 1)
      (done.length + ((toggleRun bt t 0 (cellLevels cb Parity.odd ch) false).1.takeWhile
        (fun e => decide (e < t + (cb : ℚ) * bt + bt / 2))).length)
      (by show cb + 1 < cb + 1 + 1 + sb; omega)
      (by refine Nat.add_le_add_left ?_ _
          apply takeWhile_lt_length_mono
          push_cast
          nlinarith)
    rw [cellLevels_getD_parity cb Parity.odd ch (by intro h; cases h)] at hcellP
    simp only [hcellP]
    simp only [if_true]
    rw [show txOnes cb Parity.odd ch = parity_ ch ^^^ 1 from by simp [txOnes, hpm],
      Bool.not_beq_self]
    simp only [Bool.false_eq_true, if_false]
    have hstops := rxStops_run sline bt hbt cb Parity.odd sb ch t done suffix E
      hedges hsl hend hdone hdoneEven hsuffix hendT sb 0 _ 0 (by omega) rfl
    simp only [parN, Nat.add_zero] at hstops hfull hFE ⊢
    simp only [hstops, Bool.false_eq_true, if_false]
    rw [hfull, hFE]
  | even =>
    simp only [rxLoop]
    rw [show t + bt / 2 = t + ((0 : ℕ) : ℚ) * bt + bt / 2 from by push_cast; ring]
    simp only [hcell0, Bool.not_true, Bool.false_eq_true, if_false]
    simp only [hbits]
    rw [show t + (cb : ℚ) * bt + bt / 2 + bt
        = t + ((cb + 1 : ℕ) : ℚ) * bt + bt / 2 from by push_cast; ring]
    have hcellP := sample_cell sline bt hbt cb Parity.even sb ch t done suffix E
      hedges hsl hend hdone hdoneEven hsuffix hendT (cb + 1)
      (done.length + ((toggleRun bt t 0 (cellLevels cb Parity.even ch) false).1.takeWhile
        (fun e => decide (e < t + (cb : ℚ) * bt + bt / 2))).length)
      (by show cb + 1 < cb + 1 + 1 + sb; omega)
      (by refine Nat.add_le_add_left ?_ _
          apply takeWhile_lt_length_mono
          push_cast
          nlinarith)
    rw [cellLevels_getD_parity cb Parity.even ch (by intro h; cases h)] at hcellP
    simp only [hcellP]
    rw [if_neg (show ¬ Parity.even = Parity.odd from by intro h; cases h)]
    rw [show txOnes cb Parity.even ch = parity_ ch from by simp [txOnes, hpm],
      Bool.not_beq_self]
    simp only [Bool.false_eq_true, if_false]
    have hstops := rxStops_run sline bt hbt cb Parity.even sb ch t done suffix E
      hedges hsl hend hdone hdoneEven hsuffix hendT sb 0 _ 0 (by omega) rfl
    simp only [parN, Nat.add_zero] at hstops hfull hFE ⊢
    simp only [hstops, Bool.false_eq_true, if_false]
    rw [hfull, hFE]

theorem txBlocks_cons (bt : ℚ) (cb : ℕ) (par : Parity) (sb : ℕ)
    (p : ℕ × ℚ) (rest : List (ℕ × ℚ)) :
    txBlocks bt cb par sb (p :: rest)
      = (toggleRun bt p.2 0 (cellLevels cb par p.1) false).1
          ++ txBlocks bt cb par sb rest := by
  obtain ⟨pc, pt⟩ := p
  simp only [txBlocks, txChar_eq]

theorem txBlocks_lb (bt : ℚ) (hbt : 0 < bt) (cb : ℕ) (par : Parity) (sb : ℕ) :
    ∀ (ps : List (ℕ × ℚ)) (lb : ℚ), (∀ p ∈ ps, lb ≤ p.2) →
      ∀ e ∈ txBlocks bt cb par sb ps, lb ≤ e := by
  intro ps
  induction ps with
  | nil => intro lb h e he; simp [txBlocks] at he
  | cons p rest ih =>
    intro lb h e he
    rw [txBlocks_cons] at he
    rcases List.mem_append.mp he with he | he
    · have hb := (toggleRun_mem_bounds bt p.2 hbt (cellLevels cb par p.1)
        0 false e he).1
      have hlb := h p (by simp)
      simp only [Nat.cast_zero, zero_mul, add_zero] at hb
      linarith
    · exact ih lb (fun q hq => h q (by simp [hq])) e he

theorem chain_sep_head_le (bt D : ℚ) (hD : 0 < D) (hbt : 0 ≤ bt) :
    ∀ (l : List ℚ) (x : ℚ),
      List.Chain' (fun a b => b = a + D ∨ a + D + bt / 2 ≤ b) (x :: l) →
      ∀ y ∈ l, x + D ≤ y := by
  intro l
  induction l with
  | nil => intro x h y hy; simp at hy
  | cons z zs ih =>
    intro x h y hy
    obtain ⟨hxz, h2⟩ := List.chain'_cons.mp h
    have hxz2 : x + D ≤ z := by
      rcases hxz with h1 | h1
      · rw [h1]
      · linarith
    rcases List.mem_cons.mp hy with rfl | hy
    · exact hxz2
    · have := ih z h2 y hy
      linarith

theorem frameEnd_eq (bt : ℚ) (cb : ℕ) (par : Parity) (sb : ℕ) (p : ℕ × ℚ) :
    frameEnd bt cb par sb p = p.2 + ((cb + parN par + 1 + sb : ℕ) : ℚ) * bt := by
  simp only [frameEnd, txChar_eq]
  push_cast
  ring

theorem txLoop_single (bt : ℚ) (cb : ℕ) (par : Parity) (sb : ℕ)
    (pc : ℕ) (pt : ℚ) :
    txLoop bt cb par sb [(pc, pt)]
      = txChar bt cb par sb (if (0 : ℚ) > pt then 0 else pt) pc := rfl

theorem txLoop_cons_cons (bt : ℚ) (cb : ℕ) (par : Parity) (sb : ℕ)
    (pc : ℕ) (pt : ℚ) (r : ℕ × ℚ) (rs : List (ℕ × ℚ)) :
    txLoop bt cb par sb ((pc, pt) :: r :: rs)
      = ((txChar bt cb par sb (if (0 : ℚ) > pt then 0 else pt) pc).1
          ++ (txLoop bt cb par sb (r :: rs)).1,
         (txLoop bt cb par sb (r :: rs)).2) := rfl

theorem txLoop_eq (bt : ℚ) (cb : ℕ) (par : Parity) (sb : ℕ) :
    ∀ (ps : List (ℕ × ℚ)), ps ≠ [] → (∀ p ∈ ps, 0 ≤ p.2) →
      ∃ pl, ps.getLast? = some pl ∧
        txLoop bt cb par sb ps
          = (txBlocks bt cb par sb ps, frameEnd bt cb par sb pl) := by
  intro ps
  induction ps with
  | nil => intro h; exact absurd rfl h
  | cons p rest ih =>
    intro hne hpos
    obtain ⟨pc, pt⟩ := p
    have h0 : ¬ (0 : ℚ) > pt := by
      have := hpos (pc, pt) (by simp)
      simp only at this
      linarith
    cases rest with
    | nil =>
      refine ⟨(pc, pt), by simp, ?_⟩
      rw [txLoop_single, if_neg h0]
      simp [txBlocks, frameEnd]
    | cons r rs =>
      have hner : r :: rs ≠ [] := by simp
      obtain ⟨pl, hpl1, hpl2⟩ := ih hner (fun q hq => hpos q (by simp [hq]))
      refine ⟨pl, ?_, ?_⟩
      · rw [List.getLast?_cons_cons]
        exact hpl1
      · rw [txLoop_cons_cons, hpl2, if_neg h0, txBlocks_cons]
        simp [txChar_eq, txBlocks_cons]

/-- The main loop of serial_rx over a sequence of frames whose start times
are either exactly adjacent or separated by at least half a bit period of
idle line: every frame is received with its character, exact start time and
clean status, and the loop stops at the end of the signal. -/
theorem rx_walk
    (sline : Signal) (bt : ℚ) (hbt : 0 < bt)
    (cb : ℕ) (par : Parity) (sb : ℕ) (hsb : 1 ≤ sb)
    (E : ℚ) (hsl : sline.slevel = false) (hend : sline.end_ = some E) :
    ∀ (rest : List (ℕ × ℚ)) (p : ℕ × ℚ) (P : List ℚ) (c : ℕ)
      (acc : List ℕ × List ℚ × List ℕ) (fuel : ℕ),
      sline.edges = P ++ txBlocks bt cb par sb (p :: rest) →
      (∀ e ∈ P, e < p.2) →
      P.length % 2 = 0 →
      (∀ q ∈ p :: rest, q.1 < 2 ^ cb ∧ q.1 &&& parityMaskLoop (cb - 5) 31 = q.1) →
      List.Chain' (fun x y => y = x + ((cb + parN par + 1 + sb : ℕ) : ℚ) * bt ∨
          x + ((cb + parN par + 1 + sb : ℕ) : ℚ) * bt + bt / 2 ≤ y)
        ((p :: rest).map Prod.snd) →
      (∃ pl, (p :: rest).getLast? = some pl ∧
        E = pl.2 + ((cb + parN par + 1 + sb : ℕ) : ℚ) * bt) →
      c < 2 ^ cb →
      2 * rest.length + 2 ≤ fuel →
      rxLoop sline bt cb par sb (some (2 ^ (cb - 1))) fuel p.2 P.length c acc
        = .ok (acc.1 ++ (p :: rest).map Prod.fst,
               acc.2.1 ++ (p :: rest).map Prod.snd,
               acc.2.2 ++ List.replicate (p :: rest).length 0) := by
  intro rest
  induction rest with
  | nil =>
    intro p P c acc fuel hedges hP hPeven hchars hchain hlastE hc hfuel
    have hD : 0 < ((cb + parN par + 1 + sb : ℕ) : ℚ) * bt := by
      have h1 : (1 : ℚ) ≤ ((cb + parN par + 1 + sb : ℕ) : ℚ) := by
        exact_mod_cast (by omega : 1 ≤ cb + parN par + 1 + sb)
      nlinarith
    obtain ⟨pl, hpl1, hpl2⟩ := hlastE
    have hplp : p = pl := by
      rw [List.getLast?_singleton] at hpl1
      exact Option.some.inj hpl1
    rw [← hplp] at hpl2
    have hedges2 : sline.edges
        = P ++ ((toggleRun bt p.2 0 (cellLevels cb par p.1) false).1
            ++ txBlocks bt cb par sb []) := by
      rw [hedges, txBlocks_cons]
    have hsuffix2 : ∀ e ∈ txBlocks bt cb par sb ([] : List (ℕ × ℚ)),
        p.2 + ((cb + parN par + 1 + sb : ℕ) : ℚ) * bt ≤ e := by
      intro e he
      simp [txBlocks] at he
    have hendT2 : p.2 + ((cb + parN par + 1 + sb : ℕ) : ℚ) * bt ≤ E :=
      le_of_eq hpl2.symm
    cases fuel with
    | zero => omega
    | succ f =>
      rw [rx_char sline bt hbt cb par sb hsb p.1 (hchars p (by simp)).1
        (hchars p (by simp)).2 p.2 P (txBlocks bt cb par sb []) E hedges2 hsl hend
        hP hPeven hsuffix2 hendT2 c hc f acc]
      cases f with
      | zero => omega
      | succ f2 =>
        simp only [rxLoop]
        have hublock : ∀ e ∈ (toggleRun bt p.2 0 (cellLevels cb par p.1) false).1,
            e < p.2 + ((cb + parN par + 1 + sb : ℕ) : ℚ) * bt + bt / 2 := by
          apply block_edge_lt bt p.2 hbt cb par p.1
          push_cast
          have hsbq : (1 : ℚ) ≤ (sb : ℚ) := by exact_mod_cast hsb
          nlinarith
        have hlev := level_split sline
          (P ++ (toggleRun bt p.2 0 (cellLevels cb par p.1) false).1) []
          (p.2 + ((cb + parN par + 1 + sb : ℕ) : ℚ) * bt + bt / 2)
          (P.length + (toggleRun bt p.2 0 (cellLevels cb par p.1) false).1.length)
          (by rw [hedges2]; simp [txBlocks])
          (by intro x hx
              rcases List.mem_append.mp hx with hx | hx
              · have := hP x hx
                linarith
              · exact hublock x hx)
          (by simp)
        simp only [List.takeWhile_nil, List.length_nil, List.length_append] at hlev
        rw [if_pos trivial, hend] at hlev
        have hpy : pyLt (some E)
            (some (p.2 + ((cb + parN par + 1 + sb : ℕ) : ℚ) * bt + bt / 2)) = true := by
          rw [pyLt_some_some, decide_eq_true_eq, hpl2]
          linarith
        rw [hpy, if_pos rfl] at hlev
        simp only [hlev]
        simp [List.replicate_succ]
  | cons q qs ih =>
    intro p P c acc fuel hedges hP hPeven hchars hchain hlastE hc hfuel
    have hD : 0 < ((cb + parN par + 1 + sb : ℕ) : ℚ) * bt := by
      have h1 : (1 : ℚ) ≤ ((cb + parN par + 1 + sb : ℕ) : ℚ) := by
        exact_mod_cast (by omega : 1 ≤ cb + parN par + 1 + sb)
      nlinarith
    have hchain2 : List.Chain' (fun x y =>
        y = x + ((cb + parN par + 1 + sb : ℕ) : ℚ) * bt ∨
          x + ((cb + parN par + 1 + sb : ℕ) : ℚ) * bt + bt / 2 ≤ y)
        (p.2 :: q.2 :: qs.map Prod.snd) := by
      have h := hchain
      rw [List.map_cons, List.map_cons] at h
      exact h
    obtain ⟨hR, hchainT⟩ := List.chain'_cons.mp hchain2
    have hq2 : p.2 + ((cb + parN par + 1 + sb : ℕ) : ℚ) * bt ≤ q.2 := by
      rcases hR with h | h
      · rw [h]
      · linarith
    have hrestlb : ∀ r ∈ q :: qs,
        p.2 + ((cb + parN par + 1 + sb : ℕ) : ℚ) * bt ≤ r.2 := by
      intro r hr
      have hmem : r.2 ∈ (q :: qs).map Prod.snd := List.mem_map_of_mem _ hr
      refine chain_sep_head_le bt _ hD (le_of_lt hbt) ((q :: qs).map Prod.snd) p.2
        ?_ r.2 hmem
      have h := hchain
      rw [List.map_cons] at h
      exact h
    have hsuffix2 : ∀ e ∈ txBlocks bt cb par sb (q :: qs),
        p.2 + ((cb + parN par + 1 + sb : ℕ) : ℚ) * bt ≤ e :=
      txBlocks_lb bt hbt cb par sb (q :: qs) _ hrestlb
    obtain ⟨pl, hpl1, hpl2⟩ := hlastE
    have hpl1b : (q :: qs).getLast? = some pl := by
      rw [List.getLast?_cons_cons] at hpl1
      exact hpl1
    have hplmem : pl ∈ q :: qs := List.mem_of_mem_getLast? hpl1b
    have hendT2 : p.2 + ((cb + parN par + 1 + sb : ℕ) : ℚ) * bt ≤ E := by
      have := hrestlb pl hplmem
      rw [hpl2]
      linarith
    have hedges2 : sline.edges
        = P ++ ((toggleRun bt p.2 0 (cellLevels cb par p.1) false).1
            ++ txBlocks bt cb par sb (q :: qs)) := by
      rw [hedges, txBlocks_cons]
    have hublock : ∀ e ∈ (toggleRun bt p.2 0 (cellLevels cb par p.1) false).1,
        e < p.2 + ((cb + parN par + 1 + sb : ℕ) : ℚ) * bt := by
      apply block_edge_lt bt p.2 hbt cb par p.1
      push_cast
      have hsbq : (1 : ℚ) ≤ (sb : ℚ) := by exact_mod_cast hsb
      nlinarith
    cases fuel with
    | zero => omega
    | succ f =>
      rw [rx_char sline bt hbt cb par sb hsb p.1 (hchars p (by simp)).1
        (hchars p (by simp)).2 p.2 P (txBlocks bt cb par sb (q :: qs)) E hedges2
        hsl hend hP hPeven hsuffix2 hendT2 c hc f acc]
      have hedges3 : sline.edges
          = (P ++ (toggleRun bt p.2 0 (cellLevels cb par p.1) false).1)
              ++ txBlocks bt cb par sb (q :: qs) := by
        rw [hedges2, List.append_assoc]
      have hP3 : ∀ e ∈ P ++ (toggleRun bt p.2 0 (cellLevels cb par p.1) false).1,
          e < q.2 := by
        intro e he
        rcases List.mem_append.mp he with he | he
        · have := hP e he
          linarith
        · have := hublock e he
          linarith
      have hPeven3 : (P ++ (toggleRun bt p.2 0 (cellLevels cb par p.1) false).1).length
          % 2 = 0 := by
        rw [List.length_append]
        have := block_even bt p.2 cb par p.1
        omega
      have hchars3 : ∀ r ∈ q :: qs,
          r.1 < 2 ^ cb ∧ r.1 &&& parityMaskLoop (cb - 5) 31 = r.1 :=
        fun r hr => hchars r (by simp [hr])
      have hchainT2 : List.Chain' (fun x y =>
          y = x + ((cb + parN par + 1 + sb : ℕ) : ℚ) * bt ∨
            x + ((cb + parN par + 1 + sb : ℕ) : ℚ) * bt + bt / 2 ≤ y)
          ((q :: qs).map Prod.snd) := by
        rw [List.map_cons]
        exact hchainT
      have hlen3 : P.length + (toggleRun bt p.2 0 (cellLevels cb par p.1) false).1.length
          = (P ++ (toggleRun bt p.2 0 (cellLevels cb par p.1) false).1).length :=
        (List.length_append _ _).symm
      rcases hR with hal | hgap
      · rw [show p.2 + ((cb + parN par + 1 + sb : ℕ) : ℚ) * bt = q.2 from hal.symm]
        rw [hlen3]
        rw [ih q (P ++ (toggleRun bt p.2 0 (cellLevels cb par p.1) false).1) p.1
          (acc.1 ++ [p.1], acc.2.1 ++ [p.2], acc.2.2 ++ [(0 : ℕ)]) f hedges3 hP3
          hPeven3 hchars3 hchainT2 ⟨pl, hpl1b, hpl2⟩ (hchars p (by simp)).1
          (by simp only [List.length_cons] at hfuel; omega)]
        simp [List.replicate_succ]
      · cases f with
        | zero => omega
        | succ f2 =>
          simp only [rxLoop]
          obtain ⟨bs, hbs⟩ := block_head bt q.2 cb par q.1
          have hvshape : txBlocks bt cb par sb (q :: qs)
              = q.2 :: (bs ++ txBlocks bt cb par sb qs) := by
            rw [txBlocks_cons, hbs]
            simp
          have htwv : (txBlocks bt cb par sb (q :: qs)).takeWhile
              (fun e => decide (e < p.2 + ((cb + parN par + 1 + sb : ℕ) : ℚ) * bt
                + bt / 2)) = [] := by
            rw [hvshape]
            apply List.takeWhile_cons_of_neg
            simp only [decide_eq_true_eq, not_lt]
            linarith
          have hlev := level_split sline
            (P ++ (toggleRun bt p.2 0 (cellLevels cb par p.1) false).1)
            (txBlocks bt cb par sb (q :: qs))
            (p.2 + ((cb + parN par + 1 + sb : ℕ) : ℚ) * bt + bt / 2)
            (P.length + (toggleRun bt p.2 0 (cellLevels cb par p.1) false).1.length)
            hedges3
            (by intro x hx
                rcases List.mem_append.mp hx with hx | hx
                · have := hP x hx
                  linarith
                · have := hublock x hx
                  linarith)
            (by rw [htwv]
                simp)
          rw [htwv] at hlev
          have hvne : (txBlocks bt cb par sb (q :: qs)).length ≠ 0 := by
            rw [hvshape]
            simp
          rw [if_neg (by
            simp only [List.length_nil]
            intro h
            exact hvne h.symm)] at hlev
          simp only [List.length_nil, Nat.add_zero, hsl] at hlev
          rw [lxor_even _ _ hPeven3] at hlev
          simp only [hlev, Bool.not_false, eq_self_iff_true, if_true]
          have hget : sline.edges.get?
              ((P ++ (toggleRun bt p.2 0 (cellLevels cb par p.1) false).1).length)
              = some q.2 := by
            rw [hedges3, hvshape, List.get?_append_right (le_refl _)]
            simp
          simp only [hget]
          rw [ih q (P ++ (toggleRun bt p.2 0 (cellLevels cb par p.1) false).1) p.1
            (acc.1 ++ [p.1], acc.2.1 ++ [p.2], acc.2.2 ++ [(0 : ℕ)]) f2 hedges3 hP3
            hPeven3 hchars3 hchainT2 ⟨pl, hpl1b, hpl2⟩ (hchars p (by simp)).1
            (by simp only [List.length_cons] at hfuel; omega)]
          simp [List.replicate_succ]

/-- C1 (amended): the serial codec round trip is exact for 7 or 8 data bits,
any parity mode, 1 or 2 stop bits and a positive baud rate, for every
nonempty character list whose values fit in the character width, provided
the first start time is nonnegative (and zero when it is the only one, as
serial_tx validates its initial signal with start = end otherwise), and
consecutive start times are either exactly one frame apart or leave at
least half a bit period of idle line after the previous frame: serial_rx
then returns exactly the transmitted characters, their exact start times,
and all-zero status codes. -/
theorem serial_roundtrip_exact
    (chars : List ℕ) (t0 : ℚ) (ts : List ℚ) (cb : ℕ) (par : Parity) (sb : ℕ)
    (baud : ℚ)
    (hcb : cb = 7 ∨ cb = 8) (hsb : sb = 1 ∨ sb = 2) (hbaud : 0 < baud)
    (hlen : chars.length = (t0 :: ts).length)
    (hchars : ∀ c ∈ chars, c < 2 ^ cb)
    (ht0 : 0 ≤ t0)
    (hfirst : t0 = 0 ∨ ts ≠ [])
    (hchain : List.Chain' (fun x y =>
        y = x + ((cb + parN par + 1 + sb : ℕ) : ℚ) * (1 / baud) ∨
          x + ((cb + parN par + 1 + sb : ℕ) : ℚ) * (1 / baud) + (1 / baud) / 2 ≤ y)
      (t0 :: ts)) :
    serialRoundTrip chars (t0 :: ts) cb par sb baud 1 (2 * chars.length + 1)
      = .ok (chars, t0 :: ts, List.replicate chars.length 0) := by
  have hbt : 0 < (1 : ℚ) / baud := by positivity
  have hsb1 : 1 ≤ sb := by rcases hsb with h | h <;> omega
  have hD : 0 < ((cb + parN par + 1 + sb : ℕ) : ℚ) * (1 / baud) := by
    have h1 : (1 : ℚ) ≤ ((cb + parN par + 1 + sb : ℕ) : ℚ) := by
      exact_mod_cast (by omega : 1 ≤ cb + parN par + 1 + sb)
    nlinarith
  have hmaskcb : charMaskList.get? cb = some (2 ^ (cb - 1)) := by
    rcases hcb with h | h <;> subst h <;> decide
  have hpmask : ∀ c, c < 2 ^ cb → c &&& parityMaskLoop (cb - 5) 31 = c := by
    intro c hc
    rcases hcb with h | h <;> subst h
    · rw [show parityMaskLoop (7 - 5) 31 = 2 ^ 7 - 1 from by decide]
      exact Nat.and_pow_two_sub_one_of_lt_two_pow hc
    · rw [show parityMaskLoop (8 - 5) 31 = 2 ^ 8 - 1 from by decide]
      exact Nat.and_pow_two_sub_one_of_lt_two_pow hc
  have hcb0 : ¬ cb = 0 := by rcases hcb with h | h <;> omega
  have hlastts : ∀ y ∈ ts,
      t0 + ((cb + parN par + 1 + sb : ℕ) : ℚ) * (1 / baud) ≤ y :=
    chain_sep_head_le (1 / baud) _ hD (le_of_lt hbt) ts t0 hchain
  cases chars with
  | nil => simp at hlen
  | cons c0 cs =>
  have hlen2 : cs.length = ts.length := by
    simp only [List.length_cons] at hlen
    omega
  have hpos : ∀ p ∈ (c0 :: cs).zip (t0 :: ts), 0 ≤ p.2 := by
    intro p hp
    have hmem := (List.of_mem_zip hp).2
    rcases List.mem_cons.mp hmem with h | h
    · rw [h]; exact ht0
    · have := hlastts p.2 h
      linarith
  obtain ⟨pl, hpl, htxloop⟩ := txLoop_eq (1 / baud) cb par sb
    ((c0 :: cs).zip (t0 :: ts)) (by simp) hpos
  have htlast : (pyTruthy (some t0)
      && !(pyLt (some t0) (some ((t0 :: ts).getLast (by simp))))) = false := by
    rcases hfirst with h0 | hne
    · subst h0
      simp [pyTruthy]
    · have hgl : (t0 :: ts).getLast (by simp) ∈ ts := by
        rw [List.getLast_cons hne]
        exact List.getLast_mem hne
      have hge := hlastts _ hgl
      have hlt : pyLt (some t0) (some ((t0 :: ts).getLast (by simp))) = true := by
        rw [pyLt_some_some, decide_eq_true_eq]
        linarith
      rw [hlt]
      simp
  have hmk : mkSignal (some t0) [] (some ((t0 :: ts).getLast (by simp))) false 1
      = .ok ⟨some t0, [], some ((t0 :: ts).getLast (by simp)), false, 1⟩ :=
    mkSignal_ok _ _ _ _ _ htlast (by simp) (by simp) (by simp)
  have htx : serial_tx (c0 :: cs) (t0 :: ts) cb par sb baud 1
      = .ok ⟨some t0, txBlocks (1 / baud) cb par sb ((c0 :: cs).zip (t0 :: ts)),
          some (frameEnd (1 / baud) cb par sb pl), false, 1⟩ := by
    simp only [serial_tx]
    rw [hmk]
    have h2 := htxloop
    simp only [one_div, List.zip_cons_cons] at h2
    simp [Bind.bind, Except.bind, hcb0, h2]
  obtain ⟨bs0, hbs0⟩ := block_head (1 / baud) t0 cb par c0
  have hpairs : (c0 :: cs).zip (t0 :: ts) = (c0, t0) :: cs.zip ts := rfl
  have hEeq : frameEnd (1 / baud) cb par sb pl
      = pl.2 + ((cb + parN par + 1 + sb : ℕ) : ℚ) * (1 / baud) :=
    frameEnd_eq _ _ _ _ _
  have hshape : txBlocks (1 / baud) cb par sb ((c0 :: cs).zip (t0 :: ts))
      = t0 :: (bs0 ++ txBlocks (1 / baud) cb par sb (cs.zip ts)) := by
    rw [hpairs, txBlocks_cons]
    show (toggleRun (1 / baud) t0 0 (cellLevels cb par c0) false).1
      ++ txBlocks (1 / baud) cb par sb (cs.zip ts) = _
    rw [hbs0]
    simp
  have hwalk := rx_walk
    ⟨some t0, txBlocks (1 / baud) cb par sb ((c0 :: cs).zip (t0 :: ts)),
      some (frameEnd (1 / baud) cb par sb pl), false, 1⟩
    (1 / baud) hbt cb par sb hsb1 (frameEnd (1 / baud) cb par sb pl) rfl rfl
    (cs.zip ts) (c0, t0) [] 0 ([], [], []) (2 * (c0 :: cs).length + 1)
    (by rw [hpairs]; rfl)
    (by intro e he; simp at he)
    rfl
    (by intro q hq
        obtain ⟨qc, qt⟩ := q
        rw [← hpairs] at hq
        have hz := List.of_mem_zip hq
        exact ⟨hchars qc hz.1, hpmask qc (hchars qc hz.1)⟩)
    (by rw [← hpairs, List.map_snd_zip _ _ (le_of_eq hlen.symm)]
        exact hchain)
    ⟨pl, by rw [← hpairs]; exact hpl, hEeq⟩
    (Nat.pos_pow_of_pos cb (by norm_num))
    (by simp only [List.length_zip, List.length_cons, hlen2, Nat.min_self]
        omega)
  simp only [serialRoundTrip]
  rw [htx]
  simp only [Bind.bind, Except.bind, serial_rx]
  rw [hshape, hmaskcb]
  simp only [one_div] at hwalk ⊢
  simp only [nonvoid, Option.isSome_some, Bool.not_true, Bool.false_eq_true,
    if_false]
  have hshape2 := hshape
  simp only [one_div] at hshape2
  rw [hshape2] at hwalk
  simp only [List.length_nil] at hwalk
  rw [hwalk]
  have hzlen : (cs.zip ts).length = cs.length := by
    rw [List.length_zip, hlen2, Nat.min_self]
  simp [List.map_fst_zip cs ts (le_of_eq hlen2),
    List.map_snd_zip cs ts (le_of_eq hlen2.symm), hzlen, List.replicate_succ]

/-- C1 counterexample: with 8 data bits, no parity, 2 stop bits and baud 50
(bit time 1/50, frame length 11/50), transmitting characters 97, 97 at the
non-decreasing start times 0 and 9/40 round-trips the characters and clean
statuses, but the second reported start time is 11/50, not the transmitted
9/40: the inter-frame gap 1/200 is shorter than half a bit period, so
serial_rx samples the next start bit inside the new frame while still
holding the previous frame clock.  This refutes the unconditional
round-trip claim for non-decreasing start times. -/
theorem serial_roundtrip_counterexample :
    serialRoundTrip [97, 97] [(0 : ℚ), 9 / 40] 8 Parity.off 2 50 1 20
        = .ok ([97, 97], [(0 : ℚ), 11 / 50], [0, 0])
      ∧ (9 / 40 : ℚ) ≠ 11 / 50 := by
  constructor
  · with_unfolding_all rfl
  · norm_num

/-- C1 witness: the amended round-trip theorem applied to the single
character 5 transmitted at time 0 with 7 data bits, no parity, one stop
bit and baud 1. -/
theorem serial_roundtrip_exact_witness :
    serialRoundTrip [5] [(0 : ℚ)] 7 Parity.off 1 1 1 (2 * [5].length + 1)
      = .ok ([5], [(0 : ℚ)], List.replicate [5].length 0) :=
  serial_roundtrip_exact [5] 0 [] 7 Parity.off 1 1 (Or.inl rfl) (Or.inl rfl)
    (by norm_num) rfl (by decide) (le_refl 0) (Or.inl rfl)
    (List.chain'_singleton _)

end Bitis